import Mathlib

/-!
# Proof-of-work difficulty engine of gAsp

A shallow embedding of `src/pow.cpp` (`DarkGravityWave`,
`Lwma3CalculateNextWorkRequired`, `GetNextWorkRequired`, `CheckProofOfWork`)
and of `src/internal_miner.cpp` (`isMempoolPopulated`, `secSinceLastblock`
and the decision of `ThreadGaspMiner`).

Conventions of the embedding

* An `arith_uint256` is a `Nat`. Its header and implementation are not among
  the sources: sums and products of targets follow the spec, whose arithmetic
  does not truncate, so they are the exact sums and products.
* A signed 64-bit quantity is an `Int`; a product with the target spacing is
  passed through `wrap64`, the two's complement reduction.
* A `const CBlockIndex*` is a `List CBlockIndex`: the empty list is the null
  pointer, and `b :: rest` is a pointer to the node `b` whose `pprev` is `rest`.
* A function that can dereference a null pointer, fail an assertion or divide
  by zero returns an `Option`, and `none` is that failure.
-/

namespace GAsp

/-! ## 256-bit targets and their compact encoding -/

/-- Modelled from the spec: the modulus of `arith_uint256`, whose header and
implementation are not among the sources; a Target is a 256-bit unsigned
integer. -/
def W256 : Nat := 2 ^ 256

/-- Modelled from the spec: `UintToArith256`, the conversion of a `uint256`
blob to a number; a `uint256` holds 256 bits, so the value is below
`2 ^ 256`. -/
def UintToArith256 (u : Nat) : Nat := u % W256

/-- Modelled from the spec: the product of two `arith_uint256` values
(`operator*`). The arithmetic of targets must not silently truncate, an
overflow being representable: the product is the exact product. -/
def mul256 (a b : Nat) : Nat := a * b

/-- Modelled from the spec: the sum of two `arith_uint256` values
(`operator+`). The arithmetic of targets must not silently truncate, an
overflow being representable: the sum is the exact sum. -/
def add256 (a b : Nat) : Nat := a + b

/-- Modelled from the spec: the quotient of two `arith_uint256` values
(`operator/`); there is no quotient by zero. -/
def div256 (a b : Nat) : Option Nat := if b = 0 then none else some (a / b)

/-- Two's complement reduction of an integer to the signed 64-bit range. -/
def wrap64 (x : Int) : Int := (x + 2 ^ 63) % 2 ^ 64 - 2 ^ 63

/-- Conversion of a signed 64-bit quantity to `uint64_t`, as happens when it
is turned into an `arith_uint256`. -/
def toU64 (x : Int) : Nat := (x % 2 ^ 64).toNat

/-- Conversion of a signed 64-bit quantity to `uint32_t`, as happens when it
is the right operand of `arith_uint256::operator*=`. -/
def toU32 (x : Int) : Nat := (x % 2 ^ 32).toNat

/-- Number of significant bytes of `v`, with `fuel` bounding the count. -/
def byteLengthAux : Nat → Nat → Nat
  | 0, _ => 0
  | fuel + 1, v => if v = 0 then 0 else byteLengthAux fuel (v / 256) + 1

/-- Modelled from the spec: the byte-length of the full value, which the
compact encoding uses as its exponent (`(bits() + 7) / 8`). -/
def byteLength (v : Nat) : Nat := byteLengthAux v v

/-- Result of decoding a compact target: the value and the two flags. -/
structure Decoded where
  value : Nat
  fNegative : Bool
  fOverflow : Bool
deriving DecidableEq, Repr

/-- Modelled from the spec: `arith_uint256::SetCompact`, the decoding of a
32-bit compact target. The top byte is the exponent, the low three bytes the
mantissa; the high bit of the mantissa is the sign flag and the remaining 23
bits are the magnitude. For an exponent of at most 3 the magnitude is shifted
right by `8 * (3 - exponent)` bits, otherwise left by `8 * (exponent - 3)`
bits. Overflow is flagged when the shifted magnitude needs more than 256
bits. -/
def SetCompact (nCompact : Nat) : Decoded :=
  let nSize := nCompact / 2 ^ 24
  let mantissa := nCompact % 2 ^ 24
  let nWord := mantissa % 2 ^ 23
  { value :=
      if nSize ≤ 3 then nWord / 2 ^ (8 * (3 - nSize))
      else (nWord * 2 ^ (8 * (nSize - 3))) % W256
    fNegative := decide (2 ^ 23 ≤ mantissa)
    fOverflow := decide (3 < nSize ∧ W256 ≤ nWord * 2 ^ (8 * (nSize - 3))) }

/-- Modelled from the spec: `arith_uint256::GetCompact`, the encoding of a
target. The exponent is the byte-length of the value and the mantissa its
three most significant bytes; when the top bit of that mantissa is set, the
mantissa is shifted right by one byte and the exponent is increased, so that
the sign bit of the result is never set. -/
def GetCompact (v : Nat) : Nat :=
  let nSize := byteLength v
  let nCompact :=
    if nSize ≤ 3 then v * 2 ^ (8 * (3 - nSize)) else v / 2 ^ (8 * (nSize - 3))
  if 2 ^ 23 ≤ nCompact then (nSize + 1) * 2 ^ 24 + nCompact / 2 ^ 8
  else nSize * 2 ^ 24 + nCompact

/-! ## Consensus parameters and chain nodes -/

/-- Modelled from the spec: `Consensus::Params` (declared in a header that is
not among the sources), restricted to the fields `pow.cpp` reads. `powLimit`
and `powLimit_` are `uint256` values, `nPowTargetSpacing` and
`nAveragingInterval` are signed 64-bit integers. -/
structure Params where
  powLimit : Nat
  powLimit_ : Nat
  nPowTargetSpacing : Int
  nAveragingInterval : Int
  fPowAllowMinDifficultyBlocks : Bool
deriving DecidableEq, Repr

/-- Modelled from the spec: the data of a `CBlockIndex` (declared in
`chain.h`, not among the sources): height, timestamp and compact bits. The
`pprev` link is the tail of the list that holds the node. -/
structure CBlockIndex where
  nHeight : Int
  nTime : Nat
  nBits : Nat
deriving DecidableEq, Repr

/-- A pointer `const CBlockIndex*`: `[]` is the null pointer, `b :: rest`
points to `b` and `rest` is `b.pprev`. -/
abbrev BlockPtr := List CBlockIndex

/-- Modelled from the spec: the fields of a `CBlockHeader` that `pow.cpp`
reads. -/
structure CBlockHeader where
  nTime : Nat
  nBits : Nat
deriving DecidableEq, Repr

/-- The method `CBlockIndex::GetBlockTime`: the timestamp as a signed 64-bit
integer. -/
def CBlockIndex.GetBlockTime (b : CBlockIndex) : Int := (b.nTime : Int)

/-- The method `CBlockHeader::GetBlockTime`: the timestamp as a signed 64-bit
integer. -/
def CBlockHeader.GetBlockTime (h : CBlockHeader) : Int := (h.nTime : Int)

/-- Walk along `pprev` to the first node of the given height. -/
def findHeight : BlockPtr → Int → BlockPtr
  | [], _ => []
  | b :: rest, height => if b.nHeight = height then b :: rest else findHeight rest height

/-- Modelled from the spec: `CBlockIndex::GetAncestor`, the node of the given
height on the path to this node, or null when the height is out of range. -/
def GetAncestor (pindex : BlockPtr) (height : Int) : BlockPtr :=
  match pindex with
  | [] => []
  | b :: rest => if height > b.nHeight ∨ height < 0 then [] else findHeight (b :: rest) height

/-- A chain whose nodes sit one above their predecessor, down to the genesis
block of height 0 at the end of the list. -/
def Linked : BlockPtr → Prop
  | [] => False
  | [b] => b.nHeight = 0
  | b :: c :: rest => b.nHeight = c.nHeight + 1 ∧ Linked (c :: rest)

instance Linked.instDecidable : (l : BlockPtr) → Decidable (Linked l)
  | [] => inferInstanceAs (Decidable False)
  | [b] => inferInstanceAs (Decidable (b.nHeight = 0))
  | b :: c :: rest =>
    have := Linked.instDecidable (c :: rest)
    inferInstanceAs (Decidable (b.nHeight = c.nHeight + 1 ∧ Linked (c :: rest)))

/-- A well-formed chain: the ancestor lookup finds a node for every height
from 0 to the height of the last block. -/
def WellFormed (pindexLast : BlockPtr) : Prop :=
  ∃ last pprev, pindexLast = last :: pprev ∧
    ∀ h : Int, 0 ≤ h → h ≤ last.nHeight → GetAncestor pindexLast h ≠ []

/-! ## `CheckProofOfWork` -/

/-- The function `CheckProofOfWork` (pow.cpp, lines 160-180). -/
def CheckProofOfWork (hash : Nat) (nBits : Nat) (params : Params) : Bool :=
  let d := SetCompact nBits
  let fNegative := d.fNegative
  let fOverflow := d.fOverflow
  let bnTarget := d.value
  let currentPowLimit :=
    if params.fPowAllowMinDifficultyBlocks then params.powLimit_ else params.powLimit
  if fNegative ∨ bnTarget = 0 ∨ fOverflow ∨ bnTarget > UintToArith256 currentPowLimit then
    false
  else if UintToArith256 hash > bnTarget then
    false
  else
    true


/-! ## `DarkGravityWave` -/

/-- The averaging loop of `DarkGravityWave` (pow.cpp, lines 43-55). The first
argument is the number of iterations left before `nCountBlocks` exceeds
`nPastBlocks`; the result is the final `pindex` and `bnPastTargetAvg`. The
divisor `nCountBlocks + 1` is never zero. -/
def dgwLoop : Nat → Nat → BlockPtr → Nat → BlockPtr × Nat
  | 0, _, pindex, bnPastTargetAvg => (pindex, bnPastTargetAvg)
  | _ + 1, _, [], bnPastTargetAvg => ([], bnPastTargetAvg)
  | n + 1, nCountBlocks, b :: pprev, bnPastTargetAvg =>
    let bnTarget := (SetCompact b.nBits).value
    let avg :=
      if nCountBlocks = 1 then bnTarget
      else add256 (mul256 bnPastTargetAvg nCountBlocks) bnTarget / (nCountBlocks + 1)
    if pprev.isEmpty then (b :: pprev, avg)
    else dgwLoop n (nCountBlocks + 1) pprev avg

/-- The function `DarkGravityWave` (pow.cpp, lines 16-80): the guards of line
22, the two relaxed-mode shortcuts of lines 25-38, the averaging loop, and the
retarget by the clamped timespan with the final clamp to `powLimit`. The
result is `none` when the retarget of line 73 divides by zero. -/
def DarkGravityWave (pindexLast : BlockPtr) (pblock : Option CBlockHeader)
    (params : Params) : Option Nat :=
  let bnPowLimit := UintToArith256 params.powLimit
  let nPastBlocks : Int := 24
  match pblock, pindexLast with
  | none, _ => some (GetCompact bnPowLimit)
  | some _, [] => some (GetCompact bnPowLimit)
  | some blk, last :: pprev =>
    if last.nHeight < nPastBlocks then some (GetCompact bnPowLimit)
    else if params.fPowAllowMinDifficultyBlocks = true ∧
        blk.GetBlockTime > last.GetBlockTime + 2 * 60 * 60 then
      some (GetCompact bnPowLimit)
    else if params.fPowAllowMinDifficultyBlocks = true ∧
        blk.GetBlockTime > wrap64 (last.GetBlockTime + wrap64 (params.nPowTargetSpacing * 4)) then
      let bnNew := mul256 (SetCompact last.nBits).value 10
      some (GetCompact (if bnNew > bnPowLimit then bnPowLimit else bnNew))
    else
      match dgwLoop 24 1 (last :: pprev) 0 with
      | ([], _) => some (GetCompact bnPowLimit)
      | (first :: _, bnPastTargetAvg) =>
        let nActualTimespan := last.GetBlockTime - first.GetBlockTime
        let nTargetTimespan := wrap64 (nPastBlocks * params.nPowTargetSpacing)
        let nActualTimespan :=
          if nActualTimespan < Int.tdiv nTargetTimespan 3 then Int.tdiv nTargetTimespan 3
          else nActualTimespan
        let nActualTimespan :=
          if nActualTimespan > wrap64 (nTargetTimespan * 3) then wrap64 (nTargetTimespan * 3)
          else nActualTimespan
        let bnNew := mul256 bnPastTargetAvg (toU32 nActualTimespan)
        match div256 bnNew (toU64 nTargetTimespan) with
        | none => none
        | some bnNew => some (GetCompact (if bnNew > bnPowLimit then bnPowLimit else bnNew))

/-! ## `Lwma3CalculateNextWorkRequired` -/

/-- The variables the loop of `Lwma3CalculateNextWorkRequired` updates. -/
structure LwmaState where
  previousTimestamp : Int
  t : Int
  j : Int
  sumTarget : Nat
deriving DecidableEq, Repr

/-- The loop of `Lwma3CalculateNextWorkRequired` (pow.cpp, lines 100-111).
The first argument is the number of iterations left, so that with `n + 1`
iterations left the loop variable `i` is `height - n`. The result is `none`
when an ancestor is null or the divisor `k * N` is zero. -/
def lwmaLoop (pindexLast : BlockPtr) (T k N height : Int) : Nat → LwmaState → Option LwmaState
  | 0, s => some s
  | n + 1, s =>
    match GetAncestor pindexLast (height - n) with
    | [] => none
    | block :: _ =>
      let thisTimestamp :=
        if block.GetBlockTime > s.previousTimestamp then block.GetBlockTime
        else s.previousTimestamp + 1
      let solvetime := min (wrap64 (6 * T)) (thisTimestamp - s.previousTimestamp)
      let j := s.j + 1
      let t := s.t + solvetime * j
      match div256 (SetCompact block.nBits).value (toU64 (wrap64 (k * N))) with
      | none => none
      | some target =>
        lwmaLoop pindexLast T k N height n
          { previousTimestamp := thisTimestamp, t := t, j := j
            sumTarget := add256 s.sumTarget target }

/-- The function `Lwma3CalculateNextWorkRequired` (pow.cpp, lines 82-116).
The result is
`none` when `pindexLast` or an ancestor is null, or the divisor is zero. -/
def Lwma3CalculateNextWorkRequired (pindexLast : BlockPtr) (params : Params) : Option Nat :=
  match pindexLast with
  | [] => none
  | last :: _ =>
    let T := params.nPowTargetSpacing
    let N : Int := 25
    let k := Int.tdiv (wrap64 (N * (N + 1) * T)) 2
    let height := last.nHeight
    let powLimit := UintToArith256 params.powLimit_
    if height < N then some (GetCompact powLimit)
    else
      match GetAncestor pindexLast (height - N) with
      | [] => none
      | blockPreviousTimestamp :: _ =>
        match lwmaLoop pindexLast T k N height 25
            { previousTimestamp := blockPreviousTimestamp.GetBlockTime, t := 0, j := 0
              sumTarget := 0 } with
        | none => none
        | some s =>
          let nextTarget := mul256 (toU64 s.t) s.sumTarget
          some (GetCompact (if nextTarget > powLimit then powLimit else nextTarget))

/-! ## `GetNextWorkRequired` -/

/-- The search for the first block of the averaging interval (pow.cpp, lines
143-151). The first argument is the number of iterations left before `i`
reaches `nAveragingInterval - 1`; the result is `none` when the loop returns
`nProofOfWorkLimit` from inside, and the final `pindexFirst` otherwise. -/
def findFirstLoop : Nat → BlockPtr → Option BlockPtr
  | 0, pindexFirst => some pindexFirst
  | _ + 1, [] => some []
  | n + 1, _ :: pprev => if pprev.isEmpty then none else findFirstLoop n pprev

/-- The function `GetNextWorkRequired` (pow.cpp, lines 118-158). The first
test is the assertion of line 120, the match on `[]` the genesis check of
lines 127-128 that follows it. The result is `none` when the assertion
`pindexLast != nullptr` fails, or the selected algorithm fails. -/
def GetNextWorkRequired (pindexLast : BlockPtr) (pblock : Option CBlockHeader)
    (params : Params) : Option Nat :=
  if pindexLast.isEmpty then none
  else
    let nProofOfWorkLimit := GetCompact (UintToArith256 params.powLimit)
    match pindexLast with
    | [] => some nProofOfWorkLimit
    | last :: _ =>
      if params.fPowAllowMinDifficultyBlocks then
        let nProofOfWorkLimit := GetCompact (UintToArith256 params.powLimit_)
        if last.nHeight < 25 then some nProofOfWorkLimit
        else Lwma3CalculateNextWorkRequired pindexLast params
      else
        match findFirstLoop (params.nAveragingInterval - 1).toNat pindexLast with
        | none => some nProofOfWorkLimit
        | some _ => DarkGravityWave pindexLast pblock params

/-! ## Sample inputs -/

/-- A chain of `n` blocks of heights `n - 1` down to 0, one minute apart, all
with bits `0x1d00ffff`; the head of the list is the last block. -/
def sampleChain (n : Nat) : BlockPtr :=
  (List.range n).reverse.map fun (i : Nat) =>
    CBlockIndex.mk (Int.ofNat i) (1500000000 + 60 * i) 0x1d00ffff

/-- Params of a network in non-relaxed mode, with a one-minute spacing. -/
def sampleParams : Params :=
  { powLimit := 0xfffff * 2 ^ 216, powLimit_ := 2 ^ 240 - 1, nPowTargetSpacing := 60
    nAveragingInterval := 24, fPowAllowMinDifficultyBlocks := false }

/-- The sample params in relaxed mode. -/
def sampleParamsRelaxed : Params :=
  { sampleParams with fPowAllowMinDifficultyBlocks := true }

/-- A candidate header one minute after the 30th sample block. -/
def sampleHeader : CBlockHeader := { nTime := 1500000000 + 60 * 30, nBits := 0x1d00ffff }

/-! ## The block-production loop (`internal_miner.cpp`) -/

/-- Delay of the miner when the mempool is empty (internal_miner.h, line 17). -/
def EMPTYMEMPOOL : Int := 90

/-- Delay of the miner when the mempool is populated (internal_miner.h, line
18). -/
def POPULATEDMEMPOOL : Int := 15

/-- The function `isMempoolPopulated` (internal_miner.cpp, lines 11-16). The
argument is `mempool.mapTx.size()`; the difference is stored in an
`unsigned int`, and the result is `!pendingTx`. -/
def isMempoolPopulated (mapTxSize : Nat) : Bool :=
  let pendingTx := toU32 ((mapTxSize : Int) - 1)
  decide (pendingTx = 0)

/-- The function `secSinceLastblock` (internal_miner.cpp, lines 18-22). The
arguments are the value of `GetAdjustedTime()`, a signed 64-bit integer, and
`chainActive.Tip()`; the difference is returned as an `unsigned int`. The
result is `none` when the tip is null. -/
def secSinceLastblock (adjustedTime : Int) (pindex : BlockPtr) : Option Nat :=
  match pindex with
  | [] => none
  | tip :: _ => some (toU32 (adjustedTime - (tip.nTime : Int)))

/-- What one pass of the loop of `ThreadGaspMiner` does. -/
inductive MinerAction where
  | stop
  | mine
  | skip
deriving DecidableEq, Repr

/-- The decision `shouldMine` of `ThreadGaspMiner` (internal_miner.cpp, line
40); the `int` thresholds are converted to `unsigned int` for the
comparison with `elapsedBlock`. -/
def shouldMine (pendingMempool : Bool) (elapsedBlock : Nat) : Bool :=
  decide (elapsedBlock > toU32 EMPTYMEMPOOL) ||
    (pendingMempool && decide (elapsedBlock > toU32 POPULATEDMEMPOOL))

/-- One pass of the loop of `ThreadGaspMiner` (internal_miner.cpp, lines
29-47), given the values of `isMempoolPopulated()`, `secSinceLastblock()` and
`ShutdownRequested()`. -/
def minerPass (pendingMempool : Bool) (elapsedBlock : Nat) (shutdownRequested : Bool) :
    MinerAction :=
  if shutdownRequested then MinerAction.stop
  else if shouldMine pendingMempool elapsedBlock then MinerAction.mine
  else MinerAction.skip

/-- The actual timespan of `DarkGravityWave` before clamping (pow.cpp, line
62): the timestamp of `pindexLast` minus that of the block `pindex` at which
the averaging loop stops. -/
def dgwActualTimespan (pindexLast : BlockPtr) : Option Int :=
  match pindexLast, (dgwLoop 24 1 pindexLast 0).1 with
  | last :: _, pindex :: _ => some (last.GetBlockTime - pindex.GetBlockTime)
  | _, _ => none

/-- A chain of `n` blocks of heights `n - 1` down to 0, `step` seconds apart,
all with the given bits; the head of the list is the last block. -/
def uniformChain (n step bits : Nat) : BlockPtr :=
  (List.range n).reverse.map fun (i : Nat) =>
    CBlockIndex.mk (Int.ofNat i) (1500000000 + step * i) bits

/-! ## The quantities of `Lwma3CalculateNextWorkRequired` -/

/-- The value `thisTimestamp` of one iteration of the loop of
`Lwma3CalculateNextWorkRequired` (pow.cpp, lines 102-103). -/
def lwmaThisTimestamp (block : CBlockIndex) (previousTimestamp : Int) : Int :=
  if block.GetBlockTime > previousTimestamp then block.GetBlockTime
  else previousTimestamp + 1

/-- The value `solvetime` of one iteration of the loop of
`Lwma3CalculateNextWorkRequired` (pow.cpp, line 104). -/
def lwmaSolvetime (T : Int) (block : CBlockIndex) (previousTimestamp : Int) : Int :=
  min (wrap64 (6 * T)) (lwmaThisTimestamp block previousTimestamp - previousTimestamp)

/-- The heights that `Lwma3CalculateNextWorkRequired` passes to `GetAncestor`
(pow.cpp, lines 96 and 100-101): none when `height < N`, otherwise
`height - N` and then `height - N + 1` up to `height`. -/
def lwmaLookups (height : Int) : List Int :=
  if height < 25 then []
  else (height - 25) :: (List.range 25).map fun (n : Nat) => height - 25 + 1 + (n : Int)

/-- The node of the given height on the path to `pindexLast`. -/
def blockAt (pindexLast : BlockPtr) (height : Int) : CBlockIndex :=
  (GetAncestor pindexLast height).headD (CBlockIndex.mk 0 0 0)

/-- Following the spec: the timestamps of LWMA3 made increasing. Entry 0 is the
timestamp of the ancestor at `height - N`, and entry `j` is
`max(time_j, previous + 1)` for the block of weight `j`, at height
`height - N + j`. -/
def specLwmaTimestamp (pindexLast : BlockPtr) (height : Int) : Nat → Int
  | 0 => (blockAt pindexLast (height - 25)).GetBlockTime
  | j + 1 =>
    max (blockAt pindexLast (height - 25 + ((j : Int) + 1))).GetBlockTime
      (specLwmaTimestamp pindexLast height j + 1)

/-- Following the spec: the solve time of the block of weight `j + 1`,
`min(6T, this - previous)`. -/
def specLwmaSolvetime (pindexLast : BlockPtr) (T height : Int) (j : Nat) : Int :=
  min (6 * T) (specLwmaTimestamp pindexLast height (j + 1) - specLwmaTimestamp pindexLast height j)

/-- Following the spec: the weighted sum `t` of the solve times of the blocks
of weights 1 to `n`. -/
def specLwmaT (pindexLast : BlockPtr) (T height : Int) : Nat → Int
  | 0 => 0
  | j + 1 => specLwmaT pindexLast T height j +
      ((j : Int) + 1) * specLwmaSolvetime pindexLast T height j

/-- Following the spec: the sum `S` of `floor(decode(bits_j) / (k * N))` over
the blocks of weights 1 to `n`, with `k = N(N+1)T/2`. -/
def specLwmaS (pindexLast : BlockPtr) (T height : Int) : Nat → Nat
  | 0 => 0
  | j + 1 => specLwmaS pindexLast T height j +
      (SetCompact (blockAt pindexLast (height - 25 + ((j : Int) + 1))).nBits).value /
        ((25 * (25 + 1) * T / 2) * 25).toNat

/-- Following the spec: the next target `t * S` of LWMA3 before the clamp to
`powLimit_`, as a product of natural numbers. -/
def specLwmaNextTarget (pindexLast : BlockPtr) (params : Params) : Nat :=
  match pindexLast with
  | [] => 0
  | last :: _ =>
    (specLwmaT pindexLast params.nPowTargetSpacing last.nHeight 25).toNat *
      specLwmaS pindexLast params.nPowTargetSpacing last.nHeight 25

/-- Following the spec: the variables of the LWMA3 loop after the blocks of
weights 1 to `j`. -/
def specLwmaState (pindexLast : BlockPtr) (T height : Int) (j : Nat) : LwmaState :=
  { previousTimestamp := specLwmaTimestamp pindexLast height j
    t := specLwmaT pindexLast T height j
    j := (j : Int)
    sumTarget := specLwmaS pindexLast T height j }

/-! ## Properties of the compact encoding -/

theorem byteLengthAux_lt (fuel : Nat) : ∀ v, v ≤ fuel → v < 256 ^ byteLengthAux fuel v := by
  induction fuel with
  | zero => intro v hv; simp [byteLengthAux]; omega
  | succ f ih =>
    intro v hv
    unfold byteLengthAux
    split
    · next h => subst h; simp
    · next h =>
      have hd : v / 256 ≤ f := by omega
      have := ih (v / 256) hd
      rw [pow_succ]
      exact (Nat.div_lt_iff_lt_mul (by norm_num)).1 this

theorem byteLengthAux_ge (fuel : Nat) :
    ∀ v, v ≠ 0 → v ≤ fuel → 256 ^ (byteLengthAux fuel v - 1) ≤ v := by
  induction fuel with
  | zero => intro v h0 hv; omega
  | succ f ih =>
    intro v h0 hv
    unfold byteLengthAux
    rw [if_neg h0, Nat.add_sub_cancel]
    by_cases hz : v / 256 = 0
    · have : byteLengthAux f (v / 256) = 0 := by
        rw [hz]; cases f <;> simp [byteLengthAux]
      rw [this]; simp; omega
    · have hd : v / 256 ≤ f := by omega
      have h1 := ih (v / 256) hz hd
      have hpos : 1 ≤ byteLengthAux f (v / 256) := by
        cases f with
        | zero => omega
        | succ g => unfold byteLengthAux; rw [if_neg hz]; omega
      have : 256 ^ byteLengthAux f (v / 256) = 256 ^ (byteLengthAux f (v / 256) - 1) * 256 := by
        rw [← pow_succ]; congr 1; omega
      rw [this]
      calc 256 ^ (byteLengthAux f (v / 256) - 1) * 256 ≤ v / 256 * 256 := Nat.mul_le_mul_right _ h1
        _ ≤ v := Nat.div_mul_le_self v 256

theorem lt_pow_byteLength (v : Nat) : v < 256 ^ byteLength v :=
  byteLengthAux_lt v v (le_refl v)

theorem pow_byteLength_le (v : Nat) (h : v ≠ 0) : 256 ^ (byteLength v - 1) ≤ v :=
  byteLengthAux_ge v v h (le_refl v)

theorem byteLength_pos (v : Nat) (h : v ≠ 0) : 1 ≤ byteLength v := by
  unfold byteLength
  cases v with
  | zero => exact absurd rfl h
  | succ n => unfold byteLengthAux; rw [if_neg h]; omega

theorem byteLength_le_32 (v : Nat) (h : v < W256) : byteLength v ≤ 32 := by
  by_contra hc
  have h33 : 33 ≤ byteLength v := by omega
  have h0 : v ≠ 0 := by
    intro h0; subst h0; simp [byteLength, byteLengthAux] at h33
  have h1 := pow_byteLength_le v h0
  have h2 : (256 : Nat) ^ 32 ≤ 256 ^ (byteLength v - 1) :=
    Nat.pow_le_pow_right (by norm_num) (by omega)
  have : (256 : Nat) ^ 32 = W256 := by unfold W256; norm_num
  omega


theorem SetCompact_mk (e m : Nat) (hm : m < 2 ^ 23) :
    SetCompact (e * 2 ^ 24 + m) =
      { value := if e ≤ 3 then m / 2 ^ (8 * (3 - e)) else (m * 2 ^ (8 * (e - 3))) % W256
        fNegative := false
        fOverflow := decide (3 < e ∧ W256 ≤ m * 2 ^ (8 * (e - 3))) } := by
  have h1 : (e * 2 ^ 24 + m) / 2 ^ 24 = e := by omega
  have h2 : (e * 2 ^ 24 + m) % 2 ^ 24 = m := by omega
  have h3 : m % 2 ^ 23 = m := by omega
  have h4 : ¬ (2 ^ 23 ≤ m) := by omega
  unfold SetCompact
  simp only [h1, h2, h3, h4, decide_False]

theorem pow8 (k : Nat) : 2 ^ (8 * k) = 256 ^ k := by
  rw [pow_mul]; norm_num

/-- Decoding the encoding of a 256-bit value gives a value that is not above
it, with both flags clear; a non-zero value decodes to a non-zero value. -/
theorem SetCompact_GetCompact (v : Nat) (hv : v < W256) :
    (SetCompact (GetCompact v)).value ≤ v ∧
    (SetCompact (GetCompact v)).fNegative = false ∧
    (SetCompact (GetCompact v)).fOverflow = false ∧
    (v ≠ 0 → (SetCompact (GetCompact v)).value ≠ 0) := by
  have hlt := lt_pow_byteLength v
  have hge := pow_byteLength_le v
  have hpos := byteLength_pos v
  have h32 := byteLength_le_32 v hv
  have hzero : v = 0 → byteLength v = 0 := fun h => by subst h; rfl
  unfold GetCompact
  generalize byteLength v = s at *
  by_cases hs : s ≤ 3
  · -- short values: the mantissa holds the whole value
    simp only [hs, if_true]
    have hm : v * 2 ^ (8 * (3 - s)) < 2 ^ 24 := by
      have : s = 0 ∨ s = 1 ∨ s = 2 ∨ s = 3 := by omega
      rcases this with h | h | h | h <;> subst h <;> norm_num at hlt ⊢ <;> omega
    by_cases hb : 2 ^ 23 ≤ v * 2 ^ (8 * (3 - s))
    · rw [if_pos hb, SetCompact_mk _ _ (by omega)]
      have : s = 0 ∨ s = 1 ∨ s = 2 ∨ s = 3 := by omega
      rcases this with h | h | h | h <;> subst h <;> simp only [W256] at * <;>
        norm_num at hlt hb hm ⊢ <;> omega
    · rw [if_neg hb, SetCompact_mk _ _ (by omega)]
      have : s = 0 ∨ s = 1 ∨ s = 2 ∨ s = 3 := by omega
      rcases this with h | h | h | h <;> subst h <;> simp only [W256] at * <;>
        norm_num at hlt hb hm ⊢
  · -- long values: the mantissa holds the three most significant bytes
    simp only [hs, if_false]
    have hs3 : 3 < s := by omega
    have hsplit : (256 : Nat) ^ s = 2 ^ 24 * 256 ^ (s - 3) := by
      have : s = 3 + (s - 3) := by omega
      conv_lhs => rw [this, pow_add]
      norm_num
    have hp : 0 < (256 : Nat) ^ (s - 3) := Nat.pow_pos (by norm_num)
    rw [pow8]
    have hm : v / 256 ^ (s - 3) < 2 ^ 24 := by
      rw [Nat.div_lt_iff_lt_mul hp, ← hsplit]; exact hlt
    have hle : v / 256 ^ (s - 3) * 256 ^ (s - 3) ≤ v := Nat.div_mul_le_self _ _
    have hv0 : v ≠ 0 := fun h => by have := hzero h; omega
    have hq : 2 ^ 16 ≤ v / 256 ^ (s - 3) := by
      rw [Nat.le_div_iff_mul_le hp]
      have h1 : (256 : Nat) ^ (s - 1) = 2 ^ 16 * 256 ^ (s - 3) := by
        have : s - 1 = 2 + (s - 3) := by omega
        rw [this, pow_add]; norm_num
      have := hge hv0
      omega
    generalize v / 256 ^ (s - 3) = q at *
    by_cases hb : 2 ^ 23 ≤ q
    · rw [if_pos hb, SetCompact_mk _ _ (by omega)]
      have he : ¬ (s + 1 ≤ 3) := by omega
      have hP : 2 ^ (8 * (s + 1 - 3)) = 256 * 256 ^ (s - 3) := by
        rw [pow8, ← pow_succ']; congr 1; omega
      simp only [he, if_false, hP]
      generalize (256 : Nat) ^ (s - 3) = P at *
      have ha : q / 2 ^ 8 * 256 ≤ q := by omega
      have hb2 : q / 2 ^ 8 * (256 * P) ≤ v := by
        calc q / 2 ^ 8 * (256 * P) = q / 2 ^ 8 * 256 * P := by ring
          _ ≤ q * P := Nat.mul_le_mul_right _ ha
          _ ≤ v := hle
      have hlt2 : q / 2 ^ 8 * (256 * P) < W256 := lt_of_le_of_lt hb2 hv
      have hpos2 : 0 < q / 2 ^ 8 * (256 * P) :=
        Nat.mul_pos (by omega) (Nat.mul_pos (by norm_num) hp)
      rw [Nat.mod_eq_of_lt hlt2]
      refine ⟨hb2, trivial, ?_, fun _ => by omega⟩
      simp only [decide_eq_false_iff_not, not_and, not_le]
      exact fun _ => hlt2
    · rw [if_neg hb, SetCompact_mk _ _ (by omega)]
      simp only [hs, if_false, pow8]
      generalize (256 : Nat) ^ (s - 3) = P at *
      have hlt2 : q * P < W256 := lt_of_le_of_lt hle hv
      have hpos2 : 0 < q * P := Nat.mul_pos (by omega) hp
      rw [Nat.mod_eq_of_lt hlt2]
      refine ⟨hle, trivial, ?_, fun _ => by omega⟩
      simp only [decide_eq_false_iff_not, not_and, not_le]
      exact fun _ => hlt2

theorem UintToArith256_lt (u : Nat) : UintToArith256 u < W256 :=
  Nat.mod_lt _ (by unfold W256; positivity)

theorem UintToArith256_le (u : Nat) : UintToArith256 u ≤ u :=
  Nat.mod_le _ _

/-- The encoding of a value that is within a 256-bit limit decodes to a
target within that limit, with both flags clear. -/
theorem compact_within (v L : Nat) (hv : v ≤ L) (hL : L < W256) :
    (SetCompact (GetCompact v)).value ≤ L ∧
    (SetCompact (GetCompact v)).fNegative = false ∧
    (SetCompact (GetCompact v)).fOverflow = false := by
  obtain ⟨h1, h2, h3, _⟩ := SetCompact_GetCompact v (lt_of_le_of_lt hv hL)
  exact ⟨le_trans h1 hv, h2, h3⟩

/-! ## `CheckProofOfWork` -/

theorem checkProofOfWork_true_iff (hash nBits : Nat) (params : Params) :
    CheckProofOfWork hash nBits params = true ↔
      ((SetCompact nBits).fNegative = false ∧ (SetCompact nBits).fOverflow = false ∧
        (SetCompact nBits).value ≠ 0 ∧
        (SetCompact nBits).value ≤ UintToArith256
          (if params.fPowAllowMinDifficultyBlocks = true then params.powLimit_
            else params.powLimit) ∧
        UintToArith256 hash ≤ (SetCompact nBits).value) := by
  unfold CheckProofOfWork
  simp only []
  generalize (if params.fPowAllowMinDifficultyBlocks = true then params.powLimit_
    else params.powLimit) = L
  split_ifs with h1 h2
  · simp only [Bool.false_eq_true, false_iff]
    rintro ⟨a, b, c, d, _⟩
    rcases h1 with h | h | h | h
    · rw [a] at h; exact Bool.false_ne_true h
    · exact c h
    · rw [b] at h; exact Bool.false_ne_true h
    · omega
  · simp only [Bool.false_eq_true, false_iff]
    rintro ⟨_, _, _, _, e⟩
    omega
  · simp only [true_iff]
    simp only [not_or, not_lt] at h1 h2
    obtain ⟨a, c, b, d⟩ := h1
    exact ⟨by simpa using a, by simpa using b, c, by omega, h2⟩

/-- C1: `CheckProofOfWork` accepts exactly when the decoded target carries
neither flag, is non-zero, is within the applicable limit (`powLimit_` in
relaxed mode, `powLimit` otherwise) and the hash, read as a 256-bit number,
does not exceed it. -/
theorem CheckProofOfWork_iff (hash nBits : Nat) (params : Params) :
    CheckProofOfWork hash nBits params = true ↔
      ((SetCompact nBits).fNegative = false ∧ (SetCompact nBits).fOverflow = false ∧
        (SetCompact nBits).value ≠ 0 ∧
        (SetCompact nBits).value ≤ UintToArith256
          (if params.fPowAllowMinDifficultyBlocks = true then params.powLimit_
            else params.powLimit) ∧
        UintToArith256 hash ≤ (SetCompact nBits).value) :=
  checkProofOfWork_true_iff hash nBits params

/-- C2, as stated, fails: the target `0x01000001` is within the limit and the
hash equals the target, yet the hash is rejected, because the compact
encoding keeps only the three most significant bytes of the target; and the
target 0 with the hash 0 is rejected, because a zero target is. -/
theorem CheckProofOfWork_encode_rejects_hash_le_target :
    (16777217 : Nat) ≤ 16777217 ∧ (16777217 : Nat) ≤ UintToArith256 (2 ^ 236 - 1) ∧
    GetCompact 16777217 = 0x04010000 ∧
    (SetCompact 0x04010000).value = 16777216 ∧
    CheckProofOfWork 16777217 (GetCompact 16777217)
      { powLimit := 2 ^ 236 - 1, powLimit_ := 2 ^ 236 - 1, nPowTargetSpacing := 60,
        nAveragingInterval := 24, fPowAllowMinDifficultyBlocks := false } = false ∧
    CheckProofOfWork 0 (GetCompact 0)
      { powLimit := 2 ^ 236 - 1, powLimit_ := 2 ^ 236 - 1, nPowTargetSpacing := 60,
        nAveragingInterval := 24, fPowAllowMinDifficultyBlocks := false } = false := by
  decide

/-- C2, amended: in non-relaxed mode, for a target `T` with
`0 < T ≤ powLimit` and a hash not above the target that the encoding of `T`
decodes to, `CheckProofOfWork` accepts. -/
theorem CheckProofOfWork_encode_accepts (H T : Nat) (params : Params)
    (hmode : params.fPowAllowMinDifficultyBlocks = false)
    (hpos : 0 < T) (hT : T ≤ UintToArith256 params.powLimit)
    (hH : UintToArith256 H ≤ (SetCompact (GetCompact T)).value) :
    CheckProofOfWork H (GetCompact T) params = true := by
  obtain ⟨h1, h2, h3, h4⟩ :=
    SetCompact_GetCompact T (lt_of_le_of_lt hT (UintToArith256_lt _))
  rw [checkProofOfWork_true_iff]
  refine ⟨h2, h3, h4 (by omega), ?_, hH⟩
  simp only [hmode, Bool.false_eq_true, if_false]
  omega

theorem CheckProofOfWork_encode_accepts_witness :
    CheckProofOfWork 16777216 (GetCompact 16777217)
      { powLimit := 2 ^ 236 - 1, powLimit_ := 2 ^ 240 - 1, nPowTargetSpacing := 60,
        nAveragingInterval := 24, fPowAllowMinDifficultyBlocks := false } = true :=
  CheckProofOfWork_encode_accepts 16777216 16777217 _ rfl (by decide) (by decide) (by decide)

/-- C3, as stated, fails: with `powLimit = 0xfffff * 2 ^ 216` the target
`powLimit + 1` is above the limit, but its encoding is that of `powLimit`
and the hash 0 is accepted. -/
theorem CheckProofOfWork_encode_accepts_target_above_limit :
    (0xfffff * 2 ^ 216 + 1 : Nat) > 0xfffff * 2 ^ 216 ∧
    GetCompact (0xfffff * 2 ^ 216 + 1) = GetCompact (0xfffff * 2 ^ 216) ∧
    CheckProofOfWork 0 (GetCompact (0xfffff * 2 ^ 216 + 1))
      { powLimit := 0xfffff * 2 ^ 216, powLimit_ := 0xfffff * 2 ^ 216, nPowTargetSpacing := 60,
        nAveragingInterval := 24, fPowAllowMinDifficultyBlocks := false } = true := by
  decide

/-- C3, amended: in non-relaxed mode, when the encoding of `T` decodes to a
target above `powLimit`, `CheckProofOfWork` rejects every hash. -/
theorem CheckProofOfWork_encode_rejects (T : Nat) (params : Params)
    (hmode : params.fPowAllowMinDifficultyBlocks = false)
    (hT : UintToArith256 params.powLimit < (SetCompact (GetCompact T)).value) (H : Nat) :
    CheckProofOfWork H (GetCompact T) params = false := by
  rw [← Bool.not_eq_true, checkProofOfWork_true_iff]
  rintro ⟨_, _, _, h, _⟩
  simp only [hmode, Bool.false_eq_true, if_false] at h
  omega

theorem CheckProofOfWork_encode_rejects_witness :
    CheckProofOfWork 0 (GetCompact (2 ^ 236))
      { powLimit := 2 ^ 236 - 1, powLimit_ := 2 ^ 240 - 1, nPowTargetSpacing := 60,
        nAveragingInterval := 24, fPowAllowMinDifficultyBlocks := false } = false :=
  CheckProofOfWork_encode_rejects (2 ^ 236) _ rfl (by decide) 0

/-! ## Signed 64-bit arithmetic -/

theorem wrap64_range (z : Int) : -2 ^ 63 ≤ wrap64 z ∧ wrap64 z < 2 ^ 63 := by
  unfold wrap64
  have h1 := Int.emod_nonneg (z + 2 ^ 63) (show (2 ^ 64 : Int) ≠ 0 by norm_num)
  have h2 := Int.emod_lt_of_pos (z + 2 ^ 63) (show (0 : Int) < 2 ^ 64 by norm_num)
  constructor <;> linarith

theorem wrap64_congr (z : Int) : ∃ q : Int, wrap64 z = z - 2 ^ 64 * q := by
  refine ⟨(z + 2 ^ 63) / 2 ^ 64, ?_⟩
  unfold wrap64
  rw [Int.emod_def]; ring

theorem toU64_wrap64_eq_zero (z : Int) (h : toU64 (wrap64 z) = 0) :
    ∃ c : Int, z = 2 ^ 64 * c := by
  obtain ⟨q, hq⟩ := wrap64_congr z
  rw [hq] at h
  unfold toU64 at h
  have h2 : (z - 2 ^ 64 * q) % 2 ^ 64 = 0 := by
    have := Int.emod_nonneg (z - 2 ^ 64 * q) (show (2 ^ 64 : Int) ≠ 0 by norm_num)
    omega
  obtain ⟨c, hc⟩ := Int.dvd_of_emod_eq_zero h2
  exact ⟨c + q, by linarith⟩

theorem toU64_wrap64_ne_zero (x : Int) (h0 : 0 < x) (h1 : x < 2 ^ 63) :
    toU64 (wrap64 x) ≠ 0 := by
  intro hz
  obtain ⟨c, hc⟩ := toU64_wrap64_eq_zero x hz
  rcases lt_trichotomy c 0 with hneg | hzero | hpos
  · linarith
  · subst hzero; linarith
  · linarith

/-! ## `DarkGravityWave` -/

theorem clamp_le (x L : Nat) : (if x > L then L else x) ≤ L := by
  split_ifs <;> omega

theorem darkGravityWave_guard (pindexLast : BlockPtr) (pblock : Option CBlockHeader)
    (params : Params)
    (h : pblock = none ∨ pindexLast = [] ∨
      ∃ last pprev, pindexLast = last :: pprev ∧ last.nHeight < 24) :
    DarkGravityWave pindexLast pblock params =
      some (GetCompact (UintToArith256 params.powLimit)) := by
  rcases h with h | h | ⟨last, pprev, h, hh⟩
  · subst h; rfl
  · subst h; cases pblock <;> rfl
  · subst h
    cases pblock with
    | none => rfl
    | some blk => simp only [DarkGravityWave, hh, if_true]

theorem darkGravityWave_within (pindexLast : BlockPtr) (pblock : Option CBlockHeader)
    (params : Params) (hT : 0 < params.nPowTargetSpacing)
    (hfit : 24 * params.nPowTargetSpacing < 2 ^ 63) :
    ∃ r, DarkGravityWave pindexLast pblock params = some r ∧
      (SetCompact r).value ≤ UintToArith256 params.powLimit ∧
      (SetCompact r).fNegative = false ∧ (SetCompact r).fOverflow = false := by
  have hL := UintToArith256_lt params.powLimit
  have key : ∀ v, v ≤ UintToArith256 params.powLimit →
      ∃ r, some (GetCompact v) = some r ∧
        (SetCompact r).value ≤ UintToArith256 params.powLimit ∧
        (SetCompact r).fNegative = false ∧ (SetCompact r).fOverflow = false :=
    fun v hv => ⟨_, rfl, compact_within v _ hv hL⟩
  have hne : toU64 (wrap64 (24 * params.nPowTargetSpacing)) ≠ 0 :=
    toU64_wrap64_ne_zero _ (by omega) hfit
  unfold DarkGravityWave
  simp only []
  split
  · exact key _ le_rfl
  · exact key _ le_rfl
  · split_ifs
    · exact key _ le_rfl
    · exact key _ le_rfl
    · exact key _ le_rfl
    · exact key _ (by omega)
    · split
      · exact key _ le_rfl
      · simp only [div256, hne, if_false]
        exact key _ (clamp_le _ _)

theorem darkGravityWave_sound (pindexLast : BlockPtr) (pblock : Option CBlockHeader)
    (params : Params) (r : Nat) (hr : DarkGravityWave pindexLast pblock params = some r) :
    (SetCompact r).value ≤ UintToArith256 params.powLimit ∧
      (SetCompact r).fNegative = false ∧ (SetCompact r).fOverflow = false := by
  have hL := UintToArith256_lt params.powLimit
  have key : ∀ v, v ≤ UintToArith256 params.powLimit → some (GetCompact v) = some r →
      (SetCompact r).value ≤ UintToArith256 params.powLimit ∧
        (SetCompact r).fNegative = false ∧ (SetCompact r).fOverflow = false := by
    intro v hv h
    cases h
    exact compact_within v _ hv hL
  unfold DarkGravityWave at hr
  simp only [] at hr
  split at hr
  · exact key _ le_rfl hr
  · exact key _ le_rfl hr
  · split_ifs at hr
    · exact key _ le_rfl hr
    · exact key _ le_rfl hr
    · exact key _ le_rfl hr
    · exact key _ (by omega) hr
    · split at hr
      · exact key _ le_rfl hr
      · split at hr
        · exact Option.noConfusion hr
        · exact key _ (clamp_le _ _) hr

/-- C4: for every chain, every candidate header and every params, a compact
value returned by `DarkGravityWave` decodes to a target not above `powLimit`
with neither flag set; and a value is returned whenever the target spacing is
positive and the target timespan `24 * nPowTargetSpacing` fits a signed 64-bit
integer. -/
theorem DarkGravityWave_le_powLimit (pindexLast : BlockPtr) (pblock : Option CBlockHeader)
    (params : Params) :
    (∀ r, DarkGravityWave pindexLast pblock params = some r →
      (SetCompact r).value ≤ UintToArith256 params.powLimit ∧
      (SetCompact r).fNegative = false ∧ (SetCompact r).fOverflow = false) ∧
    (0 < params.nPowTargetSpacing → 24 * params.nPowTargetSpacing < 2 ^ 63 →
      ∃ r, DarkGravityWave pindexLast pblock params = some r) := by
  refine ⟨darkGravityWave_sound pindexLast pblock params, fun hT hfit => ?_⟩
  obtain ⟨r, hr, _⟩ := darkGravityWave_within pindexLast pblock params hT hfit
  exact ⟨r, hr⟩

/-- C9: when the candidate header is absent, or `last` is absent, or
`last.nHeight < 24`, `DarkGravityWave` returns the compact encoding of
`powLimit`, whatever the params (relaxed mode or not). -/
theorem DarkGravityWave_early_exit (pindexLast : BlockPtr) (pblock : Option CBlockHeader)
    (params : Params)
    (h : pblock = none ∨ pindexLast = [] ∨
      ∃ last pprev, pindexLast = last :: pprev ∧ last.nHeight < 24) :
    DarkGravityWave pindexLast pblock params =
      some (GetCompact (UintToArith256 params.powLimit)) :=
  darkGravityWave_guard pindexLast pblock params h

/-! ## `Lwma3CalculateNextWorkRequired` -/

theorem findHeight_linked (rest : BlockPtr) :
    ∀ (b : CBlockIndex) (h : Int), Linked (b :: rest) → 0 ≤ h → h ≤ b.nHeight →
      findHeight (b :: rest) h ≠ [] := by
  induction rest with
  | nil =>
    intro b h hl h0 h1
    have hb : b.nHeight = 0 := hl
    have : b.nHeight = h := by omega
    simp [findHeight, this]
  | cons c rest ih =>
    intro b h hl h0 h1
    obtain ⟨hbc, hl2⟩ : b.nHeight = c.nHeight + 1 ∧ Linked (c :: rest) := hl
    unfold findHeight
    split_ifs with e
    · simp
    · exact ih c h hl2 h0 (by omega)

/-- A linked chain is well-formed: every height up to that of the last block
has an ancestor. -/
theorem wellFormed_of_linked (pindexLast : BlockPtr) (hl : Linked pindexLast) :
    WellFormed pindexLast := by
  cases pindexLast with
  | nil => exact absurd hl (by simp [Linked])
  | cons last pprev =>
    refine ⟨last, pprev, rfl, fun h h0 h1 => ?_⟩
    have : ¬ (h > last.nHeight ∨ h < 0) := by omega
    simp only [GetAncestor, this, if_false]
    exact findHeight_linked pprev last h hl h0 h1

theorem lwma_divisor_ne_zero (T : Int) (h0 : 0 < T) (h1 : T < 2 ^ 63) :
    toU64 (wrap64 (Int.tdiv (wrap64 (25 * (25 + 1) * T)) 2 * 25)) ≠ 0 := by
  intro hz
  obtain ⟨c, hc⟩ := toU64_wrap64_eq_zero _ hz
  obtain ⟨q, hq⟩ := wrap64_congr (25 * (25 + 1) * T)
  obtain ⟨hlo, hhi⟩ := wrap64_range (25 * (25 + 1) * T)
  generalize wrap64 (25 * (25 + 1) * T) = x at *
  -- `x` is even and not zero
  have hx2 : x = 2 * (325 * T - 2 ^ 63 * q) := by rw [hq]; ring
  have hx0 : x ≠ 0 := by
    intro hx
    have h325 : 325 * T = 2 ^ 63 * q := by linarith
    have hd : (2 ^ 63 : Int) ∣ 325 * T := ⟨q, h325⟩
    have hcop : IsCoprime (2 ^ 63 : Int) 325 := by
      apply IsCoprime.pow_left; norm_num
    obtain ⟨d, hd⟩ := hcop.dvd_of_dvd_mul_left hd
    rcases lt_trichotomy d 0 with hneg | hzero | hpos
    · linarith
    · subst hzero; linarith
    · linarith
  generalize 325 * T - 2 ^ 63 * q = m at hx2
  have hk : Int.tdiv x 2 = m := by
    subst hx2
    exact Int.mul_tdiv_cancel_left _ (by norm_num)
  rw [hk] at hc
  have hcop : IsCoprime (2 ^ 64 : Int) 25 := by
    apply IsCoprime.pow_left; norm_num
  obtain ⟨d, hd⟩ := hcop.dvd_of_dvd_mul_right ⟨c, hc⟩
  subst hx2
  rcases lt_trichotomy d 0 with hneg | hzero | hpos
  · linarith
  · subst hzero; apply hx0; linarith
  · linarith

theorem lwmaLoop_some (pindexLast : BlockPtr) (T k N height : Int)
    (hanc : ∀ h : Int, 0 ≤ h → h ≤ height → GetAncestor pindexLast h ≠ [])
    (hdiv : toU64 (wrap64 (k * N)) ≠ 0) :
    ∀ (n : Nat) (s : LwmaState), (n : Int) ≤ height + 1 →
      ∃ s', lwmaLoop pindexLast T k N height n s = some s' := by
  intro n
  induction n with
  | zero => intro s _; exact ⟨s, rfl⟩
  | succ n ih =>
    intro s hn
    have ha := hanc (height - n) (by omega) (by omega)
    unfold lwmaLoop
    split
    · next heq => exact absurd heq ha
    · simp only [div256, hdiv, if_false]
      exact ih _ (by omega)

theorem lwma3_within (pindexLast : BlockPtr) (params : Params)
    (hwf : WellFormed pindexLast) (hT : 0 < params.nPowTargetSpacing)
    (hrange : params.nPowTargetSpacing < 2 ^ 63) :
    ∃ r, Lwma3CalculateNextWorkRequired pindexLast params = some r ∧
      (SetCompact r).value ≤ UintToArith256 params.powLimit_ ∧
      (SetCompact r).fNegative = false ∧ (SetCompact r).fOverflow = false := by
  have hL := UintToArith256_lt params.powLimit_
  have key : ∀ v, v ≤ UintToArith256 params.powLimit_ →
      ∃ r, some (GetCompact v) = some r ∧
        (SetCompact r).value ≤ UintToArith256 params.powLimit_ ∧
        (SetCompact r).fNegative = false ∧ (SetCompact r).fOverflow = false :=
    fun v hv => ⟨_, rfl, compact_within v _ hv hL⟩
  obtain ⟨last, pprev, rfl, hanc⟩ := hwf
  have hdiv := lwma_divisor_ne_zero params.nPowTargetSpacing hT hrange
  unfold Lwma3CalculateNextWorkRequired
  simp only []
  split_ifs with hh
  · exact key _ le_rfl
  · have ha := hanc (last.nHeight - 25) (by omega) (by omega)
    split
    · next heq => exact absurd heq ha
    · obtain ⟨s', hs'⟩ := lwmaLoop_some (last :: pprev) params.nPowTargetSpacing
        (Int.tdiv (wrap64 (25 * (25 + 1) * params.nPowTargetSpacing)) 2) 25 last.nHeight
        hanc hdiv 25 _ (by omega)
      rw [hs']
      exact key _ (clamp_le _ _)

theorem lwma3_guard (last : CBlockIndex) (pprev : BlockPtr) (params : Params)
    (h : last.nHeight < 25) :
    Lwma3CalculateNextWorkRequired (last :: pprev) params =
      some (GetCompact (UintToArith256 params.powLimit_)) := by
  simp only [Lwma3CalculateNextWorkRequired, h, if_true]

theorem lwma3_sound (pindexLast : BlockPtr) (params : Params) (r : Nat)
    (hr : Lwma3CalculateNextWorkRequired pindexLast params = some r) :
    (SetCompact r).value ≤ UintToArith256 params.powLimit_ ∧
      (SetCompact r).fNegative = false ∧ (SetCompact r).fOverflow = false := by
  have hL := UintToArith256_lt params.powLimit_
  have key : ∀ v, v ≤ UintToArith256 params.powLimit_ → some (GetCompact v) = some r →
      (SetCompact r).value ≤ UintToArith256 params.powLimit_ ∧
        (SetCompact r).fNegative = false ∧ (SetCompact r).fOverflow = false := by
    intro v hv h
    cases h
    exact compact_within v _ hv hL
  unfold Lwma3CalculateNextWorkRequired at hr
  split at hr
  · exact Option.noConfusion hr
  · simp only [] at hr
    split_ifs at hr
    · exact key _ le_rfl hr
    · split at hr
      · exact Option.noConfusion hr
      · split at hr
        · exact Option.noConfusion hr
        · exact key _ (clamp_le _ _) hr

/-- C5: for every chain and every params, a compact value returned by
`Lwma3CalculateNextWorkRequired` decodes to a target not above `powLimit_`
(with neither flag set); and a value is returned whenever the chain ending at
`last` is well-formed and the target spacing is a positive signed 64-bit
integer. -/
theorem Lwma3_le_powLimit (pindexLast : BlockPtr) (params : Params) :
    (∀ r, Lwma3CalculateNextWorkRequired pindexLast params = some r →
      (SetCompact r).value ≤ UintToArith256 params.powLimit_ ∧
      (SetCompact r).fNegative = false ∧ (SetCompact r).fOverflow = false) ∧
    (WellFormed pindexLast → 0 < params.nPowTargetSpacing →
      params.nPowTargetSpacing < 2 ^ 63 →
      ∃ r, Lwma3CalculateNextWorkRequired pindexLast params = some r) := by
  refine ⟨lwma3_sound pindexLast params, fun hwf hT hrange => ?_⟩
  obtain ⟨r, hr, _⟩ := lwma3_within pindexLast params hwf hT hrange
  exact ⟨r, hr⟩

/-- C10: for every last block with `nHeight < 25` and every params,
`Lwma3CalculateNextWorkRequired` returns the compact encoding of `powLimit_`,
whatever the predecessors of the block are. -/
theorem Lwma3_early_exit (last : CBlockIndex) (pprev : BlockPtr) (params : Params)
    (h : last.nHeight < 25) :
    Lwma3CalculateNextWorkRequired (last :: pprev) params =
        some (GetCompact (UintToArith256 params.powLimit_)) ∧
      ∀ pprev', Lwma3CalculateNextWorkRequired (last :: pprev') params =
        Lwma3CalculateNextWorkRequired (last :: pprev) params :=
  ⟨lwma3_guard last pprev params h, fun pprev' => by
    rw [lwma3_guard last pprev params h, lwma3_guard last pprev' params h]⟩

theorem DarkGravityWave_le_powLimit_witness :
    (∀ r, DarkGravityWave (sampleChain 30) (some sampleHeader) sampleParams = some r →
      (SetCompact r).value ≤ UintToArith256 sampleParams.powLimit ∧
      (SetCompact r).fNegative = false ∧ (SetCompact r).fOverflow = false) ∧
    ∃ r, DarkGravityWave (sampleChain 30) (some sampleHeader) sampleParams = some r :=
  ⟨(DarkGravityWave_le_powLimit (sampleChain 30) (some sampleHeader) sampleParams).1,
    (DarkGravityWave_le_powLimit (sampleChain 30) (some sampleHeader) sampleParams).2
      (by decide) (by decide)⟩

theorem DarkGravityWave_early_exit_witness :
    DarkGravityWave (sampleChain 24) (some sampleHeader) sampleParamsRelaxed =
      some (GetCompact (UintToArith256 sampleParamsRelaxed.powLimit)) :=
  DarkGravityWave_early_exit (sampleChain 24) (some sampleHeader) sampleParamsRelaxed
    (Or.inr (Or.inr ⟨_, _, rfl, by decide⟩))

theorem Lwma3_le_powLimit_witness :
    (∀ r, Lwma3CalculateNextWorkRequired (sampleChain 30) sampleParamsRelaxed = some r →
      (SetCompact r).value ≤ UintToArith256 sampleParamsRelaxed.powLimit_ ∧
      (SetCompact r).fNegative = false ∧ (SetCompact r).fOverflow = false) ∧
    ∃ r, Lwma3CalculateNextWorkRequired (sampleChain 30) sampleParamsRelaxed = some r :=
  ⟨(Lwma3_le_powLimit (sampleChain 30) sampleParamsRelaxed).1,
    (Lwma3_le_powLimit (sampleChain 30) sampleParamsRelaxed).2
      (wellFormed_of_linked _ (by decide)) (by decide) (by decide)⟩

theorem Lwma3_early_exit_witness :
    Lwma3CalculateNextWorkRequired (sampleChain 25) sampleParamsRelaxed =
        some (GetCompact (UintToArith256 sampleParamsRelaxed.powLimit_)) ∧
      ∀ pprev', Lwma3CalculateNextWorkRequired
          (CBlockIndex.mk 24 (1500000000 + 60 * 24) 0x1d00ffff :: pprev') sampleParamsRelaxed =
        Lwma3CalculateNextWorkRequired (sampleChain 25) sampleParamsRelaxed :=
  Lwma3_early_exit (CBlockIndex.mk 24 (1500000000 + 60 * 24) 0x1d00ffff) (sampleChain 24)
    sampleParamsRelaxed (by decide)

/-! ## `GetNextWorkRequired` -/

theorem findFirstLoop_none_iff (n : Nat) :
    ∀ (b : CBlockIndex) (rest : BlockPtr),
      findFirstLoop n (b :: rest) = none ↔ rest.length < n := by
  induction n with
  | zero => intro b rest; simp [findFirstLoop]
  | succ n ih =>
    intro b rest
    cases rest with
    | nil => simp [findFirstLoop]
    | cons c rest => simp [findFirstLoop, ih c rest]

theorem lwma3_powLimit_irrelevant (pindexLast : BlockPtr) (params : Params) (L : Nat) :
    Lwma3CalculateNextWorkRequired pindexLast { params with powLimit := L } =
      Lwma3CalculateNextWorkRequired pindexLast params := rfl

theorem getNextWorkRequired_relaxed (last : CBlockIndex) (pprev : BlockPtr)
    (pblock : Option CBlockHeader) (params : Params)
    (hmode : params.fPowAllowMinDifficultyBlocks = true) :
    GetNextWorkRequired (last :: pprev) pblock params =
      if last.nHeight < 25 then some (GetCompact (UintToArith256 params.powLimit_))
      else Lwma3CalculateNextWorkRequired (last :: pprev) params := by
  simp only [GetNextWorkRequired, List.isEmpty_cons, Bool.false_eq_true, if_false, hmode,
    if_true]

theorem getNextWorkRequired_strict (last : CBlockIndex) (pprev : BlockPtr)
    (pblock : Option CBlockHeader) (params : Params)
    (hmode : params.fPowAllowMinDifficultyBlocks = false) :
    GetNextWorkRequired (last :: pprev) pblock params =
      if (pprev.length : Int) < params.nAveragingInterval - 1 then
        some (GetCompact (UintToArith256 params.powLimit))
      else DarkGravityWave (last :: pprev) pblock params := by
  simp only [GetNextWorkRequired, List.isEmpty_cons, Bool.false_eq_true, if_false, hmode]
  have hiff := findFirstLoop_none_iff (params.nAveragingInterval - 1).toNat last pprev
  have hlen : pprev.length < (params.nAveragingInterval - 1).toNat ↔
      (pprev.length : Int) < params.nAveragingInterval - 1 := by omega
  split
  · next heq => rw [if_pos (hlen.1 (hiff.1 heq))]
  · next p heq =>
    have : ¬ ((pprev.length : Int) < params.nAveragingInterval - 1) := by
      intro hc
      rw [hiff.2 (hlen.2 hc)] at heq
      exact Option.noConfusion heq
    rw [if_neg this]

/-- C6, as stated, fails: called with a null last block, `GetNextWorkRequired`
does not return the compact encoding of `powLimit`; the assertion
`pindexLast != nullptr` at the head of the function fails first. -/
theorem GetNextWorkRequired_null_no_powLimit :
    GetNextWorkRequired [] (some sampleHeader) sampleParams ≠
      some (GetCompact (UintToArith256 sampleParams.powLimit)) := by
  decide

/-- C6, amended: for every candidate header and every params,
`GetNextWorkRequired` called with a null last block fails the assertion
`pindexLast != nullptr` and returns no value. -/
theorem GetNextWorkRequired_null_fails (pblock : Option CBlockHeader) (params : Params) :
    GetNextWorkRequired [] pblock params = none := rfl

/-- C7: in relaxed mode, for a non-null last block, `GetNextWorkRequired`
returns the compact encoding of `powLimit_` when `last.nHeight < 25` and the
result of `Lwma3CalculateNextWorkRequired` otherwise; neither the candidate
header nor `powLimit` changes the result. -/
theorem GetNextWorkRequired_relaxed (last : CBlockIndex) (pprev : BlockPtr)
    (pblock : Option CBlockHeader) (params : Params)
    (hmode : params.fPowAllowMinDifficultyBlocks = true) :
    GetNextWorkRequired (last :: pprev) pblock params =
        (if last.nHeight < 25 then some (GetCompact (UintToArith256 params.powLimit_))
          else Lwma3CalculateNextWorkRequired (last :: pprev) params) ∧
      ∀ (pblock' : Option CBlockHeader) (L : Nat),
        GetNextWorkRequired (last :: pprev) pblock' { params with powLimit := L } =
          GetNextWorkRequired (last :: pprev) pblock params := by
  refine ⟨getNextWorkRequired_relaxed last pprev pblock params hmode, fun pblock' L => ?_⟩
  rw [getNextWorkRequired_relaxed last pprev pblock params hmode,
    getNextWorkRequired_relaxed last pprev pblock' { params with powLimit := L } hmode,
    lwma3_powLimit_irrelevant]

theorem GetNextWorkRequired_relaxed_witness :
    GetNextWorkRequired (sampleChain 30) (some sampleHeader) sampleParamsRelaxed =
        (if (29 : Int) < 25 then some (GetCompact (UintToArith256 sampleParamsRelaxed.powLimit_))
          else Lwma3CalculateNextWorkRequired (sampleChain 30) sampleParamsRelaxed) ∧
      ∀ (pblock' : Option CBlockHeader) (L : Nat),
        GetNextWorkRequired (sampleChain 30) pblock' { sampleParamsRelaxed with powLimit := L } =
          GetNextWorkRequired (sampleChain 30) (some sampleHeader) sampleParamsRelaxed :=
  GetNextWorkRequired_relaxed (CBlockIndex.mk 29 (1500000000 + 60 * 29) 0x1d00ffff)
    (sampleChain 29) (some sampleHeader) sampleParamsRelaxed rfl

/-- C8: in non-relaxed mode, for a non-null last block, `GetNextWorkRequired`
returns the compact encoding of `powLimit` when fewer than
`nAveragingInterval - 1` predecessors are reachable from the last block, and
the result of `DarkGravityWave` otherwise. -/
theorem GetNextWorkRequired_strict (last : CBlockIndex) (pprev : BlockPtr)
    (pblock : Option CBlockHeader) (params : Params)
    (hmode : params.fPowAllowMinDifficultyBlocks = false) :
    GetNextWorkRequired (last :: pprev) pblock params =
      if (pprev.length : Int) < params.nAveragingInterval - 1 then
        some (GetCompact (UintToArith256 params.powLimit))
      else DarkGravityWave (last :: pprev) pblock params :=
  getNextWorkRequired_strict last pprev pblock params hmode

theorem GetNextWorkRequired_strict_witness :
    GetNextWorkRequired (sampleChain 30) (some sampleHeader) sampleParams =
      if (((sampleChain 29).length : Nat) : Int) < sampleParams.nAveragingInterval - 1 then
        some (GetCompact (UintToArith256 sampleParams.powLimit))
      else DarkGravityWave (sampleChain 30) (some sampleHeader) sampleParams :=
  GetNextWorkRequired_strict (CBlockIndex.mk 29 (1500000000 + 60 * 29) 0x1d00ffff)
    (sampleChain 29) (some sampleHeader) sampleParams rfl

/-! ## The block-production loop -/

theorem toU32_EMPTYMEMPOOL : toU32 EMPTYMEMPOOL = 90 := by decide

theorem toU32_POPULATEDMEMPOOL : toU32 POPULATEDMEMPOOL = 15 := by decide

theorem shouldMine_iff (pendingMempool : Bool) (elapsedBlock : Nat) :
    shouldMine pendingMempool elapsedBlock = true ↔
      (elapsedBlock > 90 ∨ (pendingMempool = true ∧ elapsedBlock > 15)) := by
  unfold shouldMine
  rw [toU32_EMPTYMEMPOOL, toU32_POPULATEDMEMPOOL]
  simp only [Bool.or_eq_true, Bool.and_eq_true, decide_eq_true_eq]

/-- C13: when shutdown is not requested, the pass of the miner loop mines if
and only if `elapsed > 90` or the mempool flag is set and `elapsed > 15`; in
particular (100, false) mines, (10, true) skips, (20, true) mines and
(20, false) skips. -/
theorem ThreadGaspMiner_decision (pendingMempool : Bool) (elapsedBlock : Nat) :
    (minerPass pendingMempool elapsedBlock false = MinerAction.mine ↔
      (elapsedBlock > 90 ∨ (pendingMempool = true ∧ elapsedBlock > 15))) ∧
    minerPass false 100 false = MinerAction.mine ∧
    minerPass true 10 false = MinerAction.skip ∧
    minerPass true 20 false = MinerAction.mine ∧
    minerPass false 20 false = MinerAction.skip := by
  refine ⟨?_, by decide, by decide, by decide, by decide⟩
  rw [← shouldMine_iff]
  unfold minerPass
  cases shouldMine pendingMempool elapsedBlock <;> simp

/-- C14, the code at the failing inputs: with two entries in the mempool (one
pending transaction beyond the placeholder) `isMempoolPopulated` returns
false, and with the placeholder alone it returns true. -/
theorem isMempoolPopulated_inverted :
    isMempoolPopulated 2 = false ∧ isMempoolPopulated 1 = true ∧
    isMempoolPopulated 3 = false := by
  decide

theorem isMempoolPopulated_iff (n : Nat) :
    isMempoolPopulated n = true ↔ n % 2 ^ 32 = 1 := by
  unfold isMempoolPopulated toU32
  simp only [decide_eq_true_eq]
  omega

theorem secSinceLastblock_late_tip (adjustedTime : Int) (tip : CBlockIndex) (rest : BlockPtr)
    (d : Int) (hd0 : 0 < d) (hd1 : d < 2 ^ 32 - 90)
    (htip : (tip.nTime : Int) = adjustedTime + d) :
    ∃ e, secSinceLastblock adjustedTime (tip :: rest) = some e ∧ 90 < e ∧
      ∀ pendingMempool, minerPass pendingMempool e false = MinerAction.mine := by
  refine ⟨toU32 (adjustedTime - (tip.nTime : Int)), rfl, ?_, ?_⟩
  · unfold toU32; omega
  · intro pendingMempool
    have h : shouldMine pendingMempool (toU32 (adjustedTime - (tip.nTime : Int))) = true := by
      rw [shouldMine_iff]; left; unfold toU32; omega
    simp only [minerPass, h, if_true, Bool.false_eq_true, if_false]

/-- C20: `secSinceLastblock` returns the adjusted time minus the timestamp of
the tip, reduced modulo `2 ^ 32`; when the timestamp of the tip is `d` seconds
after the adjusted time, with `0 < d < 2 ^ 32 - 90`, the value returned exceeds
90 and the pass of the miner loop mines whatever the mempool flag is. -/
theorem secSinceLastblock_wraps (adjustedTime : Int) (tip : CBlockIndex) (rest : BlockPtr) :
    secSinceLastblock adjustedTime (tip :: rest) =
        some (((adjustedTime - (tip.nTime : Int)) % 2 ^ 32).toNat) ∧
      ∀ d : Int, 0 < d → d < 2 ^ 32 - 90 → (tip.nTime : Int) = adjustedTime + d →
        ∃ e, secSinceLastblock adjustedTime (tip :: rest) = some e ∧ 90 < e ∧
          ∀ pendingMempool, minerPass pendingMempool e false = MinerAction.mine :=
  ⟨rfl, fun d hd0 hd1 htip => secSinceLastblock_late_tip adjustedTime tip rest d hd0 hd1 htip⟩

theorem secSinceLastblock_wraps_witness :
    ∃ e, secSinceLastblock 1500000000 (CBlockIndex.mk 7 1500000100 0x1d00ffff :: []) = some e ∧
      90 < e ∧ ∀ pendingMempool, minerPass pendingMempool e false = MinerAction.mine :=
  (secSinceLastblock_wraps 1500000000 (CBlockIndex.mk 7 1500000100 0x1d00ffff) []).2 100
    (by decide) (by decide) (by decide)

/-! ## Exact round trip of the compact encoding -/

theorem decoded_eq (a : Decoded) (v : Nat) (h1 : a.value = v) (h2 : a.fNegative = false)
    (h3 : a.fOverflow = false) : a = { value := v, fNegative := false, fOverflow := false } := by
  cases a
  simp only [Decoded.mk.injEq]
  exact ⟨h1, h2, h3⟩

/-- A value whose significant bits fit the 23-bit magnitude of a compact
target, `m * 256 ^ k` with `m < 2 ^ 23`, is decoded exactly from its
encoding. -/
theorem SetCompact_GetCompact_exact (m k : Nat) (hm : m < 2 ^ 23)
    (hv : m * 256 ^ k < W256) :
    (SetCompact (GetCompact (m * 256 ^ k))).value = m * 256 ^ k := by
  by_cases hm0 : m = 0
  · subst hm0
    rw [Nat.zero_mul]
    decide
  have hpk : 0 < (256 : Nat) ^ k := Nat.pow_pos (by norm_num)
  have hv0 : m * 256 ^ k ≠ 0 := Nat.mul_ne_zero hm0 (by omega)
  have hlt := lt_pow_byteLength (m * 256 ^ k)
  have hge := pow_byteLength_le (m * 256 ^ k) hv0
  have hpos := byteLength_pos (m * 256 ^ k) hv0
  unfold GetCompact
  generalize byteLength (m * 256 ^ k) = s at *
  -- the byte length lies between `k + 1` and `k + 3`
  have hks : k < s := by
    have h1 : 256 ^ k ≤ m * 256 ^ k := Nat.le_mul_of_pos_left _ (by omega)
    exact (Nat.pow_lt_pow_iff_right (by norm_num : 1 < 256)).1 (lt_of_le_of_lt h1 hlt)
  have hsk : s ≤ k + 3 := by
    have h1 : m * 256 ^ k < 256 ^ (k + 3) := by
      have : (256 : Nat) ^ (k + 3) = 2 ^ 24 * 256 ^ k := by rw [pow_add]; ring
      rw [this]
      exact Nat.mul_lt_mul_of_pos_right (by omega) hpk
    have h2 := (Nat.pow_lt_pow_iff_right (by norm_num : 1 < 256)).1 (lt_of_le_of_lt hge h1)
    omega
  by_cases hs : s ≤ 3
  · simp only [hs, if_true]
    have hcases : (k = 0 ∧ (s = 1 ∨ s = 2 ∨ s = 3)) ∨ (k = 1 ∧ (s = 2 ∨ s = 3)) ∨
        (k = 2 ∧ s = 3) := by omega
    rcases hcases with ⟨hk, h | h | h⟩ | ⟨hk, h | h⟩ | ⟨hk, h⟩ <;> subst hk <;> subst h <;>
      split_ifs with hb <;>
      rw [SetCompact_mk _ _ (by norm_num at hlt hb ⊢; omega)] <;>
      simp only [W256] at * <;> norm_num at hlt hge hb ⊢ <;> omega
  · simp only [hs, if_false]
    have hs3 : 3 < s := by omega
    rw [pow8]
    -- `k = (s - 3) + j` with `j ≤ 2`, so the division is exact
    obtain ⟨j, hj, hj2⟩ : ∃ j, k = (s - 3) + j ∧ j ≤ 2 := ⟨k - (s - 3), by omega, by omega⟩
    have hp : 0 < (256 : Nat) ^ (s - 3) := Nat.pow_pos (by norm_num)
    have hveq : m * 256 ^ k = m * 256 ^ j * 256 ^ (s - 3) := by
      rw [hj, pow_add]; ring
    have hq : m * 256 ^ k / 256 ^ (s - 3) = m * 256 ^ j := by
      rw [hveq]; exact Nat.mul_div_cancel _ hp
    rw [hq]
    have hqlt : m * 256 ^ j < 2 ^ 24 := by
      have : j = 0 ∨ j = 1 ∨ j = 2 := by omega
      have hlt2 : m * 256 ^ j * 256 ^ (s - 3) < 2 ^ 24 * 256 ^ (s - 3) := by
        rw [← hveq]
        have : (256 : Nat) ^ s = 2 ^ 24 * 256 ^ (s - 3) := by
          have h3 : s = 3 + (s - 3) := by omega
          conv_lhs => rw [h3, pow_add]
          norm_num
        rw [← this]; exact hlt
      exact Nat.lt_of_mul_lt_mul_right hlt2
    by_cases hb : 2 ^ 23 ≤ m * 256 ^ j
    · rw [if_pos hb, SetCompact_mk _ _ (by omega)]
      have he : ¬ (s + 1 ≤ 3) := by omega
      have hP : 2 ^ (8 * (s + 1 - 3)) = 256 * 256 ^ (s - 3) := by
        rw [pow8, ← pow_succ']; congr 1; omega
      simp only [he, if_false, hP]
      have hdiv : m * 256 ^ j / 2 ^ 8 * 256 = m * 256 ^ j := by
        have : j = 1 ∨ j = 2 := by
          rcases Nat.eq_zero_or_pos j with h0 | h0
          · subst h0; simp at hb; omega
          · omega
        rcases this with h | h <;> subst h <;> omega
      have hval : m * 256 ^ j / 2 ^ 8 * (256 * 256 ^ (s - 3)) = m * 256 ^ k := by
        rw [← Nat.mul_assoc, hdiv, hveq]
      rw [hval, Nat.mod_eq_of_lt hv]
    · rw [if_neg hb, SetCompact_mk _ _ (by omega)]
      simp only [hs, if_false, pow8]
      rw [← hveq, Nat.mod_eq_of_lt hv]

/-- C12, as stated, fails: the value `0x01000001` is below `2 ^ 256`, and
decoding its compact encoding gives `0x01000000`, because the encoding keeps
the three most significant bytes only. -/
theorem SetCompact_GetCompact_lossy :
    (16777217 : Nat) < 2 ^ 256 ∧
    SetCompact (GetCompact 16777217) ≠
      { value := 16777217, fNegative := false, fOverflow := false } ∧
    SetCompact (GetCompact 16777217) =
      { value := 16777216, fNegative := false, fOverflow := false } := by
  decide

/-- C12, amended: for every value below `2 ^ 256` of the form `m * 256 ^ k`
with `m < 2 ^ 23`, the values a compact target can hold, decoding the
encoding gives the value back with both flags clear; for every value `v`
below `2 ^ 256` both flags are clear and the decoded value is at most `v`. -/
theorem compact_round_trip (m k : Nat) (hm : m < 2 ^ 23) (hv : m * 256 ^ k < W256) :
    SetCompact (GetCompact (m * 256 ^ k)) =
        { value := m * 256 ^ k, fNegative := false, fOverflow := false } ∧
      ∀ v, v < W256 → (SetCompact (GetCompact v)).value ≤ v ∧
        (SetCompact (GetCompact v)).fNegative = false ∧
        (SetCompact (GetCompact v)).fOverflow = false := by
  constructor
  · obtain ⟨_, h2, h3, _⟩ := SetCompact_GetCompact (m * 256 ^ k) hv
    exact decoded_eq _ _ (SetCompact_GetCompact_exact m k hm hv) h2 h3
  · intro v hv2
    obtain ⟨h1, h2, h3, _⟩ := SetCompact_GetCompact v hv2
    exact ⟨h1, h2, h3⟩

theorem compact_round_trip_witness :
    SetCompact (GetCompact (0xffff * 256 ^ 26)) =
      { value := 0xffff * 256 ^ 26, fNegative := false, fOverflow := false } :=
  (compact_round_trip 0xffff 26 (by decide) (by decide)).1

/-! ## The paths of `DarkGravityWave` -/

theorem wrap64_eq_self (x : Int) (h0 : -2 ^ 63 ≤ x) (h1 : x < 2 ^ 63) : wrap64 x = x := by
  unfold wrap64
  rw [Int.emod_eq_of_lt (by linarith) (by linarith)]
  ring

theorem clamp_eq_min (x L : Nat) : (if x > L then L else x) = min x L := by
  split_ifs <;> omega

theorem dgwLoop_pindex (n : Nat) :
    ∀ (c : Nat) (b : CBlockIndex) (rest : BlockPtr) (avg : Nat), n ≤ rest.length →
      (dgwLoop n c (b :: rest) avg).1 = (b :: rest).drop n := by
  induction n with
  | zero => intro c b rest avg _; rfl
  | succ n ih =>
    intro c b rest avg hn
    cases rest with
    | nil => simp at hn
    | cons b2 rest2 =>
      simp only [dgwLoop, List.isEmpty_cons, Bool.false_eq_true, if_false, List.drop_succ_cons]
      exact ih _ b2 rest2 _ (by simpa using hn)

theorem dgwActualTimespan_drop (last : CBlockIndex) (pprev : BlockPtr)
    (h : 24 ≤ pprev.length) :
    ∃ first rest, pprev.drop 23 = first :: rest ∧
      dgwActualTimespan (last :: pprev) = some (last.GetBlockTime - first.GetBlockTime) := by
  have hp := dgwLoop_pindex 24 1 last pprev 0 h
  rw [List.drop_succ_cons] at hp
  cases hd : pprev.drop 23 with
  | nil =>
    have := congrArg List.length hd
    simp at this
    omega
  | cons first rest =>
    refine ⟨first, rest, rfl, ?_⟩
    unfold dgwActualTimespan
    rw [hp, hd]

/-- C17, the code on every chain with at least 24 predecessors: the averaging
walk of `DarkGravityWave` stops at the 24th predecessor of the last block, one
block beyond the 24 blocks whose targets entered the average, and the actual
timespan is measured from that block, over 24 block intervals. -/
theorem DarkGravityWave_timespan_blocks (last : CBlockIndex) (pprev : BlockPtr)
    (h : 24 ≤ pprev.length) :
    ∃ first rest, pprev.drop 23 = first :: rest ∧
      dgwActualTimespan (last :: pprev) = some (last.GetBlockTime - first.GetBlockTime) :=
  dgwActualTimespan_drop last pprev h

theorem DarkGravityWave_timespan_blocks_witness :
    ∃ first rest, (sampleChain 29).drop 23 = first :: rest ∧
      dgwActualTimespan (CBlockIndex.mk 29 (1500000000 + 60 * 29) 0x1d00ffff :: sampleChain 29) =
        some ((CBlockIndex.mk 29 (1500000000 + 60 * 29) 0x1d00ffff).GetBlockTime -
          first.GetBlockTime) :=
  DarkGravityWave_timespan_blocks (CBlockIndex.mk 29 (1500000000 + 60 * 29) 0x1d00ffff)
    (sampleChain 29) (by decide)

/-- The timespan of the sample chain, whose blocks are one minute apart, is 24
minutes and not 23. -/
theorem dgwActualTimespan_sample :
    dgwActualTimespan (sampleChain 30) = some (24 * 60) ∧
    dgwActualTimespan (sampleChain 30) ≠ some (23 * 60) := by
  decide

theorem darkGravityWave_two_hours (last : CBlockIndex) (pprev : BlockPtr) (blk : CBlockHeader)
    (params : Params) (hmode : params.fPowAllowMinDifficultyBlocks = true)
    (hh : 24 ≤ last.nHeight)
    (hlate : blk.GetBlockTime > last.GetBlockTime + 2 * 60 * 60) :
    DarkGravityWave (last :: pprev) (some blk) params =
      some (GetCompact (UintToArith256 params.powLimit)) := by
  have h1 : ¬ (last.nHeight < 24) := by omega
  simp only [DarkGravityWave, h1, if_false, hmode, hlate, and_self, if_true]

theorem darkGravityWave_four_spacings (last : CBlockIndex) (pprev : BlockPtr)
    (blk : CBlockHeader) (params : Params)
    (hmode : params.fPowAllowMinDifficultyBlocks = true) (hh : 24 ≤ last.nHeight)
    (hlo : -2 ^ 63 ≤ 4 * params.nPowTargetSpacing)
    (hhi : last.GetBlockTime + 4 * params.nPowTargetSpacing < 2 ^ 63)
    (hlate : blk.GetBlockTime > last.GetBlockTime + 4 * params.nPowTargetSpacing)
    (hnot : ¬ blk.GetBlockTime > last.GetBlockTime + 2 * 60 * 60) :
    DarkGravityWave (last :: pprev) (some blk) params =
      some (GetCompact (min (10 * (SetCompact last.nBits).value)
        (UintToArith256 params.powLimit))) := by
  have h1 : ¬ (last.nHeight < 24) := by omega
  have ht0 : 0 ≤ last.GetBlockTime := by
    unfold CBlockIndex.GetBlockTime; exact Int.ofNat_nonneg _
  have hw1 : wrap64 (params.nPowTargetSpacing * 4) = params.nPowTargetSpacing * 4 :=
    wrap64_eq_self _ (by linarith) (by linarith)
  have hw2 : wrap64 (last.GetBlockTime + params.nPowTargetSpacing * 4) =
      last.GetBlockTime + params.nPowTargetSpacing * 4 :=
    wrap64_eq_self _ (by linarith) (by linarith)
  have h2 : blk.GetBlockTime > last.GetBlockTime + params.nPowTargetSpacing * 4 := by linarith
  simp only [DarkGravityWave, h1, if_false, hmode, hnot, and_false, hw1, hw2, h2, and_self,
    if_true, clamp_eq_min, mul256]
  rw [Nat.mul_comm]

/-- C15: in relaxed mode, for a last block of height at least 24, if the
candidate timestamp is greater than `last.time + 4 * spacing` but not greater
than `last.time + 2 hours`, `DarkGravityWave` returns the compact encoding of
`min (10 * decode(last.bits)) powLimit`, the product being the true product;
and if the candidate timestamp is greater than `last.time + 2 hours` it
returns the compact encoding of `powLimit`. The sum `last.time + 4 * spacing`
of line 31 is taken where it does not overflow a signed 64-bit integer. -/
theorem DarkGravityWave_min_difficulty (last : CBlockIndex) (pprev : BlockPtr)
    (blk : CBlockHeader) (params : Params)
    (hmode : params.fPowAllowMinDifficultyBlocks = true) (hh : 24 ≤ last.nHeight)
    (hlo : -2 ^ 63 ≤ 4 * params.nPowTargetSpacing)
    (hhi : last.GetBlockTime + 4 * params.nPowTargetSpacing < 2 ^ 63) :
    (blk.GetBlockTime > last.GetBlockTime + 4 * params.nPowTargetSpacing →
      ¬ blk.GetBlockTime > last.GetBlockTime + 2 * 60 * 60 →
        DarkGravityWave (last :: pprev) (some blk) params =
          some (GetCompact (min (10 * (SetCompact last.nBits).value)
            (UintToArith256 params.powLimit)))) ∧
    (blk.GetBlockTime > last.GetBlockTime + 2 * 60 * 60 →
      DarkGravityWave (last :: pprev) (some blk) params =
        some (GetCompact (UintToArith256 params.powLimit))) :=
  ⟨fun hlate hnot =>
      darkGravityWave_four_spacings last pprev blk params hmode hh hlo hhi hlate hnot,
    fun hlate => darkGravityWave_two_hours last pprev blk params hmode hh hlate⟩

theorem DarkGravityWave_min_difficulty_witness :
    DarkGravityWave (CBlockIndex.mk 29 (1500000000 + 60 * 29) 0x20333334 :: sampleChain 29)
        (some { nTime := 1500000000 + 60 * 29 + 300, nBits := 0x20333334 })
        sampleParamsRelaxed =
      some (GetCompact (min (10 * (SetCompact 0x20333334).value)
        (UintToArith256 sampleParamsRelaxed.powLimit))) :=
  (DarkGravityWave_min_difficulty (CBlockIndex.mk 29 (1500000000 + 60 * 29) 0x20333334)
    (sampleChain 29) { nTime := 1500000000 + 60 * 29 + 300, nBits := 0x20333334 }
    sampleParamsRelaxed rfl (by decide) (by decide) (by decide)).1
      (by decide) (by decide)

theorem SetCompact_value_lt (c : Nat) : (SetCompact c).value < W256 := by
  unfold SetCompact
  simp only []
  split_ifs
  · have h1 : c % 2 ^ 24 % 2 ^ 23 / 2 ^ (8 * (3 - c / 2 ^ 24)) ≤ c % 2 ^ 24 % 2 ^ 23 :=
      Nat.div_le_self _ _
    have h2 : c % 2 ^ 24 % 2 ^ 23 < 2 ^ 23 := Nat.mod_lt _ (by norm_num)
    have h3 : (2 : Nat) ^ 23 < W256 := by unfold W256; norm_num
    omega
  · exact Nat.mod_lt _ (by unfold W256; norm_num)

theorem lwma_k_eq (T : Int) (hT : 1 ≤ T) (hfit : 8125 * T < 2 ^ 63) :
    Int.tdiv (wrap64 (25 * (25 + 1) * T)) 2 = 325 * T := by
  have h : (25 : Int) * (25 + 1) * T = 650 * T := by ring
  rw [h, wrap64_eq_self _ (by linarith) (by linarith),
    Int.tdiv_eq_ediv (by linarith) (by norm_num)]
  omega

theorem lwma_divisor_eq (T : Int) (hT : 1 ≤ T) (hfit : 8125 * T < 2 ^ 63) :
    toU64 (wrap64 (325 * T * 25)) = (8125 * T).toNat := by
  have h : (325 : Int) * T * 25 = 8125 * T := by ring
  rw [h, wrap64_eq_self _ (by linarith) (by linarith)]
  unfold toU64
  rw [Int.emod_eq_of_lt (by linarith) (by linarith)]

theorem spec_divisor_eq (T : Int) : ((25 * (25 + 1) * T / 2) * 25).toNat = (8125 * T).toNat := by
  have h : (25 : Int) * (25 + 1) * T / 2 = 325 * T := by omega
  rw [h]
  congr 1
  ring

theorem lwmaThisTimestamp_eq_max (block : CBlockIndex) (prev : Int) :
    lwmaThisTimestamp block prev = max block.GetBlockTime (prev + 1) := by
  unfold lwmaThisTimestamp
  split_ifs with h
  · exact (max_eq_left (by omega)).symm
  · exact (max_eq_right (by omega)).symm

theorem lwmaSolvetime_bounds (T : Int) (hT : 1 ≤ T) (hfit : 6 * T < 2 ^ 63)
    (block : CBlockIndex) (prev : Int) :
    1 ≤ lwmaSolvetime T block prev ∧ lwmaSolvetime T block prev ≤ 6 * T := by
  unfold lwmaSolvetime
  rw [wrap64_eq_self _ (by linarith) hfit, lwmaThisTimestamp_eq_max]
  have h1 : prev + 1 ≤ max block.GetBlockTime (prev + 1) := le_max_right _ _
  constructor
  · exact le_min (by linarith) (by linarith)
  · exact min_le_left _ _

theorem specLwmaSolvetime_bounds (pindexLast : BlockPtr) (T height : Int) (hT : 1 ≤ T)
    (j : Nat) :
    1 ≤ specLwmaSolvetime pindexLast T height j ∧
      specLwmaSolvetime pindexLast T height j ≤ 6 * T := by
  unfold specLwmaSolvetime
  have h1 : specLwmaTimestamp pindexLast height j + 1 ≤
      specLwmaTimestamp pindexLast height (j + 1) := by
    simp only [specLwmaTimestamp]
    exact le_max_right _ _
  constructor
  · exact le_min (by linarith) (by linarith)
  · exact min_le_left _ _

theorem specLwmaT_bounds (pindexLast : BlockPtr) (T height : Int) (hT : 1 ≤ T) (n : Nat) :
    (n : Int) * (n + 1) ≤ 2 * specLwmaT pindexLast T height n ∧
      2 * specLwmaT pindexLast T height n ≤ 6 * T * ((n : Int) * (n + 1)) := by
  induction n with
  | zero => simp [specLwmaT]
  | succ n ih =>
    obtain ⟨hs1, hs2⟩ := specLwmaSolvetime_bounds pindexLast T height hT n
    obtain ⟨ih1, ih2⟩ := ih
    have hn : (0 : Int) ≤ (n : Int) + 1 := by positivity
    have ha : ((n : Int) + 1) * 1 ≤ ((n : Int) + 1) * specLwmaSolvetime pindexLast T height n :=
      mul_le_mul_of_nonneg_left hs1 hn
    have hb : ((n : Int) + 1) * specLwmaSolvetime pindexLast T height n ≤
        ((n : Int) + 1) * (6 * T) := mul_le_mul_of_nonneg_left hs2 hn
    simp only [specLwmaT]
    push_cast
    constructor
    · nlinarith
    · nlinarith

theorem specLwmaS_bound (pindexLast : BlockPtr) (T height : Int) (M : Nat)
    (hM : ∀ i : Int, height - 25 < i → i ≤ height →
      (SetCompact (blockAt pindexLast i).nBits).value ≤ M) (n : Nat) (hn : n ≤ 25) :
    specLwmaS pindexLast T height n * (8125 * T).toNat ≤ n * M := by
  induction n with
  | zero => simp [specLwmaS]
  | succ n ih =>
    have ih2 := ih (by omega)
    have hx := hM (height - 25 + ((n : Int) + 1)) (by omega) (by omega)
    simp only [specLwmaS, spec_divisor_eq]
    have hd := Nat.div_mul_le_self
      (SetCompact (blockAt pindexLast (height - 25 + ((n : Int) + 1))).nBits).value
      (8125 * T).toNat
    rw [Nat.add_mul, Nat.add_mul, Nat.one_mul]
    omega

theorem lwmaLoop_refines (pindexLast : BlockPtr) (T height : Int)
    (hanc : ∀ h : Int, 0 ≤ h → h ≤ height → GetAncestor pindexLast h ≠ [])
    (hT : 1 ≤ T) (hfit : 8125 * T < 2 ^ 63) (hh : 25 ≤ height) (n : Nat) :
    ∀ j : Nat, n + j = 25 →
      lwmaLoop pindexLast T (325 * T) 25 height n (specLwmaState pindexLast T height j) =
        some (specLwmaState pindexLast T height 25) := by
  induction n with
  | zero =>
    intro j hj
    have : j = 25 := by omega
    subst this
    rfl
  | succ n ih =>
    intro j hj
    have hidx : height - (n : Int) = height - 25 + ((j : Int) + 1) := by omega
    have hne := hanc (height - (n : Int)) (by omega) (by omega)
    cases hga : GetAncestor pindexLast (height - (n : Int)) with
    | nil => exact absurd hga hne
    | cons block tl =>
      have hblock : blockAt pindexLast (height - 25 + ((j : Int) + 1)) = block := by
        unfold blockAt
        rw [← hidx, hga]
        rfl
      have hd0 : (8125 * T).toNat ≠ 0 := by omega
      have hw6 : wrap64 (6 * T) = 6 * T := wrap64_eq_self _ (by linarith) (by linarith)
      have hstate :
          ({ previousTimestamp :=
              if block.GetBlockTime > (specLwmaState pindexLast T height j).previousTimestamp
              then block.GetBlockTime
              else (specLwmaState pindexLast T height j).previousTimestamp + 1
             t := (specLwmaState pindexLast T height j).t +
              min (6 * T)
                ((if block.GetBlockTime >
                    (specLwmaState pindexLast T height j).previousTimestamp
                  then block.GetBlockTime
                  else (specLwmaState pindexLast T height j).previousTimestamp + 1) -
                  (specLwmaState pindexLast T height j).previousTimestamp) *
                ((specLwmaState pindexLast T height j).j + 1)
             j := (specLwmaState pindexLast T height j).j + 1
             sumTarget := add256 (specLwmaState pindexLast T height j).sumTarget
              ((SetCompact block.nBits).value / (8125 * T).toNat) } : LwmaState) =
            specLwmaState pindexLast T height (j + 1) := by
        have hts : (if block.GetBlockTime > specLwmaTimestamp pindexLast height j
            then block.GetBlockTime else specLwmaTimestamp pindexLast height j + 1) =
            specLwmaTimestamp pindexLast height (j + 1) := by
          have := lwmaThisTimestamp_eq_max block (specLwmaTimestamp pindexLast height j)
          unfold lwmaThisTimestamp at this
          rw [this]
          simp only [specLwmaTimestamp, hblock]
        simp only [specLwmaState, LwmaState.mk.injEq]
        refine ⟨hts, ?_, by push_cast; ring, ?_⟩
        · rw [hts]
          simp only [specLwmaT, specLwmaSolvetime]
          ring
        · unfold add256
          have : specLwmaS pindexLast T height j +
              (SetCompact block.nBits).value / (8125 * T).toNat =
              specLwmaS pindexLast T height (j + 1) := by
            simp only [specLwmaS, spec_divisor_eq, hblock]
          exact this
      unfold lwmaLoop
      simp only [hga, div256, lwma_divisor_eq T hT hfit, hd0, if_false, hw6]
      rw [hstate]
      exact ih (j + 1) (by omega)

theorem lwma3_formula (last : CBlockIndex) (pprev : BlockPtr) (params : Params)
    (hanc : ∀ h : Int, 0 ≤ h → h ≤ last.nHeight → GetAncestor (last :: pprev) h ≠ [])
    (hh : 25 ≤ last.nHeight) (hT : 1 ≤ params.nPowTargetSpacing)
    (hfit : 8125 * params.nPowTargetSpacing < 2 ^ 63) :
    lwmaLoop (last :: pprev) params.nPowTargetSpacing
        (Int.tdiv (wrap64 (25 * (25 + 1) * params.nPowTargetSpacing)) 2) 25 last.nHeight 25
        (LwmaState.mk (blockAt (last :: pprev) (last.nHeight - 25)).GetBlockTime 0 0 0) =
      some (specLwmaState (last :: pprev) params.nPowTargetSpacing last.nHeight 25) ∧
    Lwma3CalculateNextWorkRequired (last :: pprev) params =
      some (GetCompact (min (specLwmaNextTarget (last :: pprev) params)
        (UintToArith256 params.powLimit_))) := by
  have hloop := lwmaLoop_refines (last :: pprev) params.nPowTargetSpacing last.nHeight hanc hT
    hfit hh 25 0 rfl
  have hk := lwma_k_eq params.nPowTargetSpacing hT hfit
  have hinit : LwmaState.mk (blockAt (last :: pprev) (last.nHeight - 25)).GetBlockTime 0 0 0 =
      specLwmaState (last :: pprev) params.nPowTargetSpacing last.nHeight 0 := rfl
  have hfirst : lwmaLoop (last :: pprev) params.nPowTargetSpacing
      (Int.tdiv (wrap64 (25 * (25 + 1) * params.nPowTargetSpacing)) 2) 25 last.nHeight 25
      (LwmaState.mk (blockAt (last :: pprev) (last.nHeight - 25)).GetBlockTime 0 0 0) =
      some (specLwmaState (last :: pprev) params.nPowTargetSpacing last.nHeight 25) := by
    rw [hk, hinit]; exact hloop
  refine ⟨hfirst, ?_⟩
  have hne := hanc (last.nHeight - 25) (by omega) (by omega)
  have h1 : ¬ (last.nHeight < 25) := by omega
  obtain ⟨ht1, ht2⟩ := specLwmaT_bounds (last :: pprev) params.nPowTargetSpacing last.nHeight
    hT 25
  have ht0 : 0 ≤ specLwmaT (last :: pprev) params.nPowTargetSpacing last.nHeight 25 := by
    norm_num at ht1; linarith
  have ht64 : specLwmaT (last :: pprev) params.nPowTargetSpacing last.nHeight 25 < 2 ^ 64 := by
    norm_num at ht2; linarith
  have hu : toU64 (specLwmaT (last :: pprev) params.nPowTargetSpacing last.nHeight 25) =
      (specLwmaT (last :: pprev) params.nPowTargetSpacing last.nHeight 25).toNat := by
    unfold toU64
    rw [Int.emod_eq_of_lt ht0 ht64]
  cases hga : GetAncestor (last :: pprev) (last.nHeight - 25) with
  | nil => exact absurd hga hne
  | cons blockPrev tl =>
    have hb : blockAt (last :: pprev) (last.nHeight - 25) = blockPrev := by
      unfold blockAt; rw [hga]; rfl
    rw [hb] at hfirst
    simp only [Lwma3CalculateNextWorkRequired, h1, if_false, hga, hfirst, clamp_eq_min, mul256,
      specLwmaNextTarget, specLwmaState, hu]

theorem wellFormed_cons (last : CBlockIndex) (pprev : BlockPtr)
    (hwf : WellFormed (last :: pprev)) :
    ∀ h : Int, 0 ≤ h → h ≤ last.nHeight → GetAncestor (last :: pprev) h ≠ [] := by
  obtain ⟨l, p, heq, hanc⟩ := hwf
  injection heq with h1 h2
  subst h1
  exact hanc

theorem lwma3_next_target_le (last : CBlockIndex) (pprev : BlockPtr) (params : Params)
    (hT : 1 ≤ params.nPowTargetSpacing) (M : Nat)
    (hM : ∀ i : Int, last.nHeight - 25 < i → i ≤ last.nHeight →
      (SetCompact (blockAt (last :: pprev) i).nBits).value ≤ M) :
    specLwmaNextTarget (last :: pprev) params ≤ 6 * M := by
  obtain ⟨_, ht2⟩ := specLwmaT_bounds (last :: pprev) params.nPowTargetSpacing last.nHeight
    hT 25
  have hS := specLwmaS_bound (last :: pprev) params.nPowTargetSpacing last.nHeight M hM 25
    (le_refl 25)
  unfold specLwmaNextTarget
  simp only []
  generalize specLwmaT (last :: pprev) params.nPowTargetSpacing last.nHeight 25 = t at *
  generalize specLwmaS (last :: pprev) params.nPowTargetSpacing last.nHeight 25 = S at *
  obtain ⟨Tn, hTn⟩ : ∃ Tn : Nat, params.nPowTargetSpacing = (Tn : Int) :=
    ⟨params.nPowTargetSpacing.toNat, by omega⟩
  rw [hTn] at ht2 hS
  have h1 : t.toNat ≤ 1950 * Tn := by
    norm_num at ht2
    omega
  have h2 : (8125 * (Tn : Int)).toNat = 8125 * Tn := by omega
  rw [h2] at hS
  have h3 : t.toNat * S ≤ 1950 * Tn * S := Nat.mul_le_mul_right _ h1
  have h4 : S * (8125 * Tn) = 8125 * (Tn * S) := by ring
  have h5 : 1950 * Tn * S = 1950 * (Tn * S) := by ring
  rw [h4] at hS
  rw [h5] at h3
  omega

/-- C16: for every well-formed chain with `last.nHeight ≥ 25` and a target
spacing `T ≥ 1` with `8125 * T < 2 ^ 63` (the products `k * N` and `6 * T` do
not overflow a signed 64-bit integer), `Lwma3CalculateNextWorkRequired`
returns the compact encoding of `min (t * S) powLimit_`, where `t` is the
weighted sum of the clamped solve times and `S` the sum of the pre-divided
targets that the spec describes. -/
theorem Lwma3_refines_spec (last : CBlockIndex) (pprev : BlockPtr) (params : Params)
    (hwf : WellFormed (last :: pprev)) (hh : 25 ≤ last.nHeight)
    (hT : 1 ≤ params.nPowTargetSpacing) (hfit : 8125 * params.nPowTargetSpacing < 2 ^ 63) :
    Lwma3CalculateNextWorkRequired (last :: pprev) params =
      some (GetCompact (min (specLwmaNextTarget (last :: pprev) params)
        (UintToArith256 params.powLimit_))) :=
  (lwma3_formula last pprev params (wellFormed_cons last pprev hwf) hh hT hfit).2

theorem Lwma3_refines_spec_witness :
    Lwma3CalculateNextWorkRequired
        (CBlockIndex.mk 29 (1500000000 + 180 * 29) 0x207fffff :: uniformChain 29 180 0x207fffff)
        sampleParamsRelaxed =
      some (GetCompact (min (specLwmaNextTarget
        (CBlockIndex.mk 29 (1500000000 + 180 * 29) 0x207fffff :: uniformChain 29 180 0x207fffff)
        sampleParamsRelaxed) (UintToArith256 sampleParamsRelaxed.powLimit_))) :=
  Lwma3_refines_spec (CBlockIndex.mk 29 (1500000000 + 180 * 29) 0x207fffff)
    (uniformChain 29 180 0x207fffff) sampleParamsRelaxed
    (wellFormed_of_linked _ (by decide)) (by decide) (by decide) (by decide)

/-- C18: for every well-formed chain and every target spacing `T ≥ 1` (a
signed 64-bit value), `Lwma3CalculateNextWorkRequired` returns a value; every
height it passes to `GetAncestor` lies between 0 and `last.nHeight` and has an
ancestor, and the divisor `k * N` is not zero. -/
theorem Lwma3_never_fails (last : CBlockIndex) (pprev : BlockPtr) (params : Params)
    (hwf : WellFormed (last :: pprev)) (hT : 1 ≤ params.nPowTargetSpacing)
    (hrange : params.nPowTargetSpacing < 2 ^ 63) :
    (∃ r, Lwma3CalculateNextWorkRequired (last :: pprev) params = some r) ∧
    (∀ h ∈ lwmaLookups last.nHeight,
      0 ≤ h ∧ h ≤ last.nHeight ∧ GetAncestor (last :: pprev) h ≠ []) ∧
    toU64 (wrap64 (Int.tdiv (wrap64 (25 * (25 + 1) * params.nPowTargetSpacing)) 2 * 25)) ≠
      0 := by
  refine ⟨?_, ?_, lwma_divisor_ne_zero _ (by omega) hrange⟩
  · obtain ⟨r, hr, _⟩ := lwma3_within (last :: pprev) params hwf (by omega) hrange
    exact ⟨r, hr⟩
  · intro h hmem
    have hanc := wellFormed_cons last pprev hwf
    unfold lwmaLookups at hmem
    split_ifs at hmem with hlt
    · simp at hmem
    · have hb : 0 ≤ h ∧ h ≤ last.nHeight := by
        simp only [List.mem_cons, List.mem_map, List.mem_range] at hmem
        rcases hmem with h1 | ⟨n, hn, h1⟩
        · omega
        · omega
      exact ⟨hb.1, hb.2, hanc h hb.1 hb.2⟩

theorem Lwma3_never_fails_witness :
    (∃ r, Lwma3CalculateNextWorkRequired
      (CBlockIndex.mk 29 (1500000000 + 60 * 29) 0x1d00ffff :: sampleChain 29)
      sampleParamsRelaxed = some r) ∧
    (∀ h ∈ lwmaLookups 29, 0 ≤ h ∧ h ≤ 29 ∧
      GetAncestor (CBlockIndex.mk 29 (1500000000 + 60 * 29) 0x1d00ffff :: sampleChain 29) h ≠
        []) ∧
    toU64 (wrap64 (Int.tdiv (wrap64 (25 * (25 + 1) * sampleParamsRelaxed.nPowTargetSpacing)) 2 *
      25)) ≠ 0 :=
  Lwma3_never_fails (CBlockIndex.mk 29 (1500000000 + 60 * 29) 0x1d00ffff) (sampleChain 29)
    sampleParamsRelaxed (wellFormed_of_linked _ (by decide)) (by decide) (by decide)

/-- C19: for every well-formed chain with `last.nHeight ≥ 25` and a target
spacing `T ≥ 1` with `8125 * T < 2 ^ 63`, every clamped solve time of
`Lwma3CalculateNextWorkRequired` lies in `[1, 6T]`, the weighted sum `t` that
the loop ends with satisfies `N(N+1)/2 ≤ t ≤ 6k`, and the next target before
the clamp to `powLimit_` is at most 6 times any bound on the decoded targets
of the 25 most recent blocks, whatever the timestamps are. -/
theorem Lwma3_bounds (last : CBlockIndex) (pprev : BlockPtr) (params : Params)
    (hwf : WellFormed (last :: pprev)) (hh : 25 ≤ last.nHeight)
    (hT : 1 ≤ params.nPowTargetSpacing) (hfit : 8125 * params.nPowTargetSpacing < 2 ^ 63) :
    (∀ (block : CBlockIndex) (previousTimestamp : Int),
      1 ≤ lwmaSolvetime params.nPowTargetSpacing block previousTimestamp ∧
      lwmaSolvetime params.nPowTargetSpacing block previousTimestamp ≤
        6 * params.nPowTargetSpacing) ∧
    ∃ s, lwmaLoop (last :: pprev) params.nPowTargetSpacing
          (Int.tdiv (wrap64 (25 * (25 + 1) * params.nPowTargetSpacing)) 2) 25 last.nHeight 25
          (LwmaState.mk (blockAt (last :: pprev) (last.nHeight - 25)).GetBlockTime 0 0 0) =
        some s ∧
      Lwma3CalculateNextWorkRequired (last :: pprev) params =
        some (GetCompact (min (mul256 (toU64 s.t) s.sumTarget)
          (UintToArith256 params.powLimit_))) ∧
      25 * (25 + 1) / 2 ≤ s.t ∧
      s.t ≤ 6 * Int.tdiv (wrap64 (25 * (25 + 1) * params.nPowTargetSpacing)) 2 ∧
      ∀ M : Nat, (∀ i : Int, last.nHeight - 25 < i → i ≤ last.nHeight →
          (SetCompact (blockAt (last :: pprev) i).nBits).value ≤ M) →
        mul256 (toU64 s.t) s.sumTarget ≤ 6 * M := by
  have hanc := wellFormed_cons last pprev hwf
  obtain ⟨hloop, hres⟩ := lwma3_formula last pprev params hanc hh hT hfit
  obtain ⟨ht1, ht2⟩ := specLwmaT_bounds (last :: pprev) params.nPowTargetSpacing last.nHeight
    hT 25
  norm_num at ht1 ht2
  have hu : toU64 (specLwmaT (last :: pprev) params.nPowTargetSpacing last.nHeight 25) =
      (specLwmaT (last :: pprev) params.nPowTargetSpacing last.nHeight 25).toNat := by
    unfold toU64
    rw [Int.emod_eq_of_lt (by linarith) (by linarith)]
  have hmul : mul256 (toU64 (specLwmaState (last :: pprev) params.nPowTargetSpacing
      last.nHeight 25).t) (specLwmaState (last :: pprev) params.nPowTargetSpacing
      last.nHeight 25).sumTarget = specLwmaNextTarget (last :: pprev) params := by
    simp only [specLwmaState, hu, mul256, specLwmaNextTarget]
  refine ⟨fun block prev => lwmaSolvetime_bounds _ hT (by linarith) block prev,
    specLwmaState (last :: pprev) params.nPowTargetSpacing last.nHeight 25, hloop, ?_, ?_, ?_, ?_⟩
  · rw [hmul]; exact hres
  · simp only [specLwmaState]
    norm_num
    linarith
  · rw [lwma_k_eq _ hT hfit]
    simp only [specLwmaState]
    linarith
  · intro M hM
    rw [hmul]
    exact lwma3_next_target_le last pprev params hT M hM

theorem Lwma3_bounds_witness :
    ∃ s, lwmaLoop (CBlockIndex.mk 29 (1500000000 + 60 * 29) 0x1d00ffff :: sampleChain 29)
          sampleParamsRelaxed.nPowTargetSpacing
          (Int.tdiv (wrap64 (25 * (25 + 1) * sampleParamsRelaxed.nPowTargetSpacing)) 2) 25 29 25
          (LwmaState.mk (blockAt
            (CBlockIndex.mk 29 (1500000000 + 60 * 29) 0x1d00ffff :: sampleChain 29)
            (29 - 25)).GetBlockTime 0 0 0) = some s ∧
      25 * (25 + 1) / 2 ≤ s.t ∧
      s.t ≤ 6 * Int.tdiv (wrap64 (25 * (25 + 1) * sampleParamsRelaxed.nPowTargetSpacing)) 2 := by
  obtain ⟨s, h1, _, h3, h4, _⟩ :=
    (Lwma3_bounds (CBlockIndex.mk 29 (1500000000 + 60 * 29) 0x1d00ffff) (sampleChain 29)
      sampleParamsRelaxed (wellFormed_of_linked _ (by decide)) (by decide) (by decide)
      (by decide)).2
  exact ⟨s, h1, h3, h4⟩

end GAsp
